import Mathlib

/-
Verification of the book-scraping pipeline (src/main.py) against its
natural-language specification.

The Python source is shallowly embedded: rows are lists of strings, the
values written to CSV cells are a small inductive type `PyVal`, network
effects are abstracted as oracles (`fetch : String → Option String` for the
HTTP fetcher, `llm : String → String → Except String (Option String)` for
the language-model call), the thread pool's completion order is an explicit
permutation of row indices, and a Python exception that escapes a function
is an `Except.error` carrying the text of `str(e)`.  Python `str.lower` and
`str.strip` are modelled on their ASCII behaviour, which is exact for every
character the program compares against.
-/

/-- A Python value as it appears in a CSV row produced by the program:
a string cell, a float cell (modelled as the exact decimal rational that
`float` parses, rounding is irrelevant to the properties proved here),
an int cell, or `None`. -/
inductive PyVal where
  | str : String → PyVal
  | float : Rat → PyVal
  | int : Nat → PyVal
  | none : PyVal
deriving DecidableEq, Repr

/-- ASCII model of Python `str.lower` on one character. -/
def lowerChar (c : Char) : Char :=
  if 'A' ≤ c ∧ c ≤ 'Z' then Char.ofNat (c.toNat + 32) else c

/-- Model of Python `str.lower`. -/
def pyLower (s : String) : String :=
  String.mk (s.data.map lowerChar)

/-- The whitespace characters stripped by Python `str.strip()`
(ASCII part: space, tab, newline, carriage return, vertical tab, form feed). -/
def isPySpace (c : Char) : Bool :=
  c = ' ' || c = '\t' || c = '\n' || c = '\r' || c = '\x0b' || c = '\x0c'

/-- Drop the characters satisfying `p` from both ends of a list. -/
def stripChars (p : Char → Bool) (l : List Char) : List Char :=
  ((l.dropWhile p).reverse.dropWhile p).reverse

/-- Model of Python `str.strip()` (no argument: strip whitespace). -/
def pyStrip (s : String) : String :=
  String.mk (stripChars isPySpace s.data)

/-- The apostrophe character. -/
def quoteC : Char := '\''

/-- Model of Python `str.strip("...")` for the single-quote character set,
as in `.strip(...)` on line 120/121 of src/main.py. -/
def pyStripQuote (s : String) : String :=
  String.mk (stripChars (fun c => c = quoteC) s.data)

/-- Model of `res.replace("\n", " ")` (src/main.py line 118): a single-character
pattern, so occurrences never overlap and replacement is character-wise. -/
def replaceNl (s : String) : String :=
  String.mk (s.data.map (fun c => if c = '\n' then ' ' else c))

/-- Model of `(...).replace(" ", "+")` (src/main.py line 176). -/
def replaceSpacePlus (s : String) : String :=
  String.mk (s.data.map (fun c => if c = ' ' then '+' else c))

/-- Match a literal list of characters at the head of the input; on success
return the remaining input.  Used to model literal parts of Python string
operations and of the regular expression. -/
def litMatch : List Char → List Char → Option (List Char)
  | [], cs => some cs
  | _ :: _, [] => Option.none
  | l :: ls, c :: cs => if c = l then litMatch ls cs else Option.none

theorem litMatch_length : ∀ (l cs r : List Char), litMatch l cs = some r → r.length ≤ cs.length := by
  intro l
  induction l with
  | nil => intro cs r h; simp [litMatch] at h; simp [h]
  | cons x xs ih =>
    intro cs r h
    cases cs with
    | nil => simp [litMatch] at h
    | cons c cs2 =>
      simp only [litMatch] at h
      split at h
      · exact Nat.le_trans (ih cs2 r h) (Nat.le_succ _)
      · exact absurd h (by simp)

/-- The worker loop of Python `str.split(sep)` for a non-empty separator
`s0 :: sr`: scan left to right, cutting at each non-overlapping occurrence.
The fuel argument makes the recursion structural; `pySplit` passes the input
length, which the loop never exhausts (each separator hit consumes at least
one character beyond the head, so the remainder's length never exceeds the
remaining fuel). -/
def splitGo (s0 : Char) (sr : List Char) : Nat → List Char → List Char → List (List Char)
  | _, [], acc => [acc.reverse]
  | 0, cs, acc => [acc.reverse ++ cs]
  | fuel + 1, c :: rest, acc =>
    if c = s0 then
      match litMatch sr rest with
      | some rest2 => acc.reverse :: splitGo s0 sr fuel rest2 []
      | Option.none => splitGo s0 sr fuel rest (c :: acc)
    else splitGo s0 sr fuel rest (c :: acc)

/-- Model of Python `str.split(sep)` for a non-empty separator.
(Python raises on an empty separator; the program only splits on the
non-empty literals `", author:"` and `"title:"`.) -/
def pySplit (s : String) (sep : String) : List String :=
  match sep.data with
  | [] => [s]
  | s0 :: sr => (splitGo s0 sr s.data.length s.data []).map String.mk

/-- Whether the pattern `s0 :: sr` occurs as a contiguous substring. -/
def containsSub (s0 : Char) (sr : List Char) : List Char → Bool
  | [] => false
  | c :: cs => (decide (c = s0) && (litMatch sr cs).isSome) || containsSub s0 sr cs

/- ------------------------------------------------------------------ -/
/- The rating regular expression (src/main.py lines 184-190):
   re.search(r"(\d+\.\d+) avg rating.*?(\d+,?\d*) ratings", text, re.DOTALL)
   embedded as a backtracking matcher that tries alternatives in exactly
   Python's order: greedy pieces longest-first, the lazy `.*?` shortest-first,
   and the search the leftmost start first.                               -/

/-- Length of the maximal digit run at the head of the input. -/
def digitsPrefixLen (cs : List Char) : Nat := (cs.takeWhile Char.isDigit).length

/-- Candidate lengths for a greedy `\d+`: the maximal run down to 1. -/
def plusCands (cs : List Char) : List Nat :=
  (List.range (digitsPrefixLen cs)).map (fun t => digitsPrefixLen cs - t)

/-- Candidate lengths for a greedy `\d*`: the maximal run down to 0. -/
def starCands (cs : List Char) : List Nat :=
  (List.range (digitsPrefixLen cs + 1)).map (fun t => digitsPrefixLen cs - t)

/-- Candidate lengths for the lazy `.*?` under DOTALL: 0 up to all of the input. -/
def lazyCands (cs : List Char) : List Nat := List.range (cs.length + 1)

/-- Candidate lengths for a greedy `,?`: take the comma if present, else skip. -/
def commaCands (cs : List Char) : List Nat :=
  match cs with
  | c :: _ => if c = ',' then [1, 0] else [0]
  | [] => [0]

/-- Try a continuation on each candidate in order; first success wins.
This is the backtracking engine. -/
def tryEach : List α → (α → Option β) → Option β
  | [], _ => Option.none
  | a :: as, k =>
    match k a with
    | some b => some b
    | Option.none => tryEach as k

def litAvgRating : List Char := (" avg rating").data

def litRatings : List Char := (" ratings").data

/-- The tail of the pattern, `(\d+,?\d*) ratings`, at a fixed position:
returns the text of capture group 2.  Nothing of the pattern follows
`" ratings"`, so this sub-matcher is a self-contained continuation. -/
def matchCount (cs : List Char) : Option (List Char) :=
  tryEach (plusCands cs) (fun n3 =>
    tryEach (commaCands (cs.drop n3)) (fun nc =>
      tryEach (starCands ((cs.drop n3).drop nc)) (fun n4 =>
        Option.map
          (fun _ => cs.take n3 ++ (cs.drop n3).take nc ++ ((cs.drop n3).drop nc).take n4)
          (litMatch litRatings (((cs.drop n3).drop nc).drop n4)))))

/-- The literal dot of `\d+\.\d+`. -/
def quoteDot : Char := '.'

/-- Match the whole pattern anchored at the start of `cs`, returning the
texts of capture groups 1 and 2. -/
def matchAt (cs : List Char) : Option (List Char × List Char) :=
  tryEach (plusCands cs) (fun n1 =>
    Option.bind (litMatch [quoteDot] (cs.drop n1)) (fun cs2 =>
      tryEach (plusCands cs2) (fun n2 =>
        Option.bind (litMatch litAvgRating (cs2.drop n2)) (fun cs3 =>
          tryEach (lazyCands cs3) (fun j =>
            Option.map (fun g2 => (cs.take n1 ++ quoteDot :: cs2.take n2, g2))
              (matchCount (cs3.drop j)))))))

/-- `re.search`: try the pattern at each start position, leftmost first.
(The empty tail needs no extra try: the pattern cannot match empty input.) -/
def reSearch : List Char → Option (List Char × List Char)
  | [] => Option.none
  | c :: rest =>
    match matchAt (c :: rest) with
    | some r => some r
    | Option.none => reSearch rest

/-- `int(digits)` after the digits have been accumulated. -/
def digitsToNat (cs : List Char) : Nat :=
  cs.foldl (fun acc c => acc * 10 + (c.toNat - 48)) 0

/-- `float(match.group(1))` for a string of shape `digits.digits`,
as the exact decimal rational. -/
def parse_rating_float (g : List Char) : Rat :=
  let ip := g.takeWhile Char.isDigit
  let fp := g.drop (ip.length + 1)
  (digitsToNat ip : Rat) + (digitsToNat fp : Rat) / ((10 : Rat) ^ fp.length)

/-- `int(match.group(2).replace(",", ""))`. -/
def parse_int_commas (cs : List Char) : Nat :=
  digitsToNat (cs.filter (fun c => c ≠ ','))

/-- Lines 184-190 of src/main.py: search for the rating pattern; on a match
bind both groups, else leave both values `None`.  No code path raises. -/
def extract_rating (text : String) : Option Rat × Option Nat :=
  match reSearch text.data with
  | some (g1, g2) => (some (parse_rating_float g1), some (parse_int_commas g2))
  | Option.none => (Option.none, Option.none)

/- ------------------------------------------------------------------ -/
/- HTTP fetcher: make_request (src/main.py lines 49-64).  The per-attempt
   outcome of `requests_retry_session().get(...)` + `raise_for_status()`
   (which bundles the transport-level retry budget of 3) is abstracted as
   an oracle `fetch : Nat → Option String` indexed by the attempt number.
   The result records (response, number of attempts made, list of sleep
   durations in order).                                                  -/

/-- One iteration of the `for attempt in range(max_retries)` loop, with
fuel to express the bounded loop.  `make_request` supplies fuel equal to
`max_retries`, so the fuel never runs out before the loop does. -/
def make_request_go (fetch : Nat → Option String) (maxr : Nat) :
    Nat → Nat → Option String × Nat × List Nat
  | 0, _ => (Option.none, 0, [])
  | fuel + 1, attempt =>
    if attempt < maxr then
      match fetch attempt with
      | some r => (some r, 1, [])
      | Option.none =>
        if attempt = maxr - 1 then (Option.none, 1, [])
        else
          let rest := make_request_go fetch maxr fuel (attempt + 1)
          (rest.1, rest.2.1 + 1, 2 ^ attempt :: rest.2.2)
    else (Option.none, 0, [])

/-- `make_request(url, max_retries)`: returns `(response?, attempts made,
sleeps performed)`.  When `max_retries = 0` the loop body never runs and the
Python function falls through, returning `None` with no attempt. -/
def make_request (fetch : Nat → Option String) (maxr : Nat) :
    Option String × Nat × List Nat :=
  make_request_go fetch maxr maxr 0

/- ------------------------------------------------------------------ -/
/- Row enricher: scrape_book_data (src/main.py lines 174-196).            -/

def GR_URL : String := "https://www.goodreads.com"

/-- `q = (title + " " + author).replace(" ", "+").lower()`. -/
def gr_query (title author : String) : String :=
  pyLower (replaceSpacePlus (title ++ " " ++ author))

/-- `url = f"{GR_URL}/search?q={q}&qid="`. -/
def gr_search_url (title author : String) : String :=
  GR_URL ++ "/search?q=" ++ gr_query title author ++ "&qid="

def errUnpack : String := "ValueError: not enough values to unpack"

/-- Wrap an optional rating as the Python value appended to the row. -/
def optRat : Option Rat → PyVal
  | some q => PyVal.float q
  | Option.none => PyVal.none

/-- Wrap an optional rating count as the Python value appended to the row. -/
def optNat : Option Nat → PyVal
  | some n => PyVal.int n
  | Option.none => PyVal.none

/-- `scrape_book_data(row)` run as a pooled task: `title, author, *_ = row`
raises `ValueError` on a row of fewer than 2 fields; otherwise the fetch
outcome decides between `row + [None, None]` and `row + [rating, num_ratings]`.
`fetch` maps the request URL to the response body (`None` = `make_request`
exhausted its attempts). -/
def scrape_book_data (fetch : String → Option String) (row : List String) :
    Except String (List PyVal) :=
  match row with
  | title :: author :: _ =>
    match fetch (gr_search_url title author) with
    | Option.none => Except.ok (row.map PyVal.str ++ [PyVal.none, PyVal.none])
    | some body =>
      match extract_rating body with
      | (r, n) => Except.ok (row.map PyVal.str ++ [optRat r, optNat n])
  | _ => Except.error errUnpack

/-- The one result the pipeline records for a row: the task's value, or the
fallback `row + [None, None]` built at the collection point. -/
def enrich_result (fetch : String → Option String) (row : List String) : List PyVal :=
  match scrape_book_data fetch row with
  | Except.ok d => d
  | Except.error _ => row.map PyVal.str ++ [PyVal.none, PyVal.none]

def errIndexRow : String := "IndexError: list index out of range"

/-- The `as_completed` collection loop of scrape_gr_data (src/main.py lines
210-223), iterating over the completion order: on a task exception the
handler evaluates `row[0]` (raising `IndexError` on an empty row, which
escapes) before appending `row + [None, None]`. -/
def scrape_gr_data_go (fetch : String → Option String) (rows : List (List String)) :
    List Nat → List (List PyVal) → Except String (List (List PyVal))
  | [], acc => Except.ok acc
  | i :: rest, acc =>
    match scrape_book_data fetch (rows.getD i []) with
    | Except.ok d => scrape_gr_data_go fetch rows rest (acc ++ [d])
    | Except.error _ =>
      if (rows.getD i []).length = 0 then Except.error errIndexRow
      else scrape_gr_data_go fetch rows rest
        (acc ++ [(rows.getD i []).map PyVal.str ++ [PyVal.none, PyVal.none]])

/-- `scrape_gr_data()` after the input CSV has been read into `rows`:
collect one result per completed future, in completion order `order`
(a permutation of the row indices at runtime). -/
def scrape_gr_data (fetch : String → Option String) (order : List Nat)
    (rows : List (List String)) : Except String (List (List PyVal)) :=
  scrape_gr_data_go fetch rows order []

/- ------------------------------------------------------------------ -/
/- Title/author verifier (src/main.py lines 103-171).                     -/

/-- `verify_title_and_author` (lines 155-171): the chat-completion call is
abstracted as its outcome, `Except.error e` for a raised exception and
`Except.ok content` for `response.choices[0].message.content`.  The code
returns `content or "correct"` (so an absent `None` content, or an empty
string, is replaced by `"correct"`), and returns `"correct"` when the call
raised. -/
def verify_title_and_author (llm_outcome : Except String (Option String)) : String :=
  match llm_outcome with
  | Except.error _ => "correct"
  | Except.ok content =>
    match content with
    | Option.none => "correct"
    | some s => if s = "" then "correct" else s

def sepAuthor : String := ", author:"

def sepTitle : String := "title:"

def errFormat : String := "Unexpected response format"

def errIndex : String := "list index out of range"

/-- The suggestion parser of verify_book_info (lines 118-123), as the value
of the `try` block: `res.replace("\n", " ").split(", author:")` must have
exactly 2 parts, else `ValueError("Unexpected response format")`;
`parts[0].split("title:")[1]` raises `IndexError` when `"title:"` does not
occur in `parts[0]`; each captured piece is `.strip().strip("'")`-ed. -/
def parse_suggestion (res : String) : Except String (String × String) :=
  let parts := pySplit (replaceNl res) sepAuthor
  if parts.length = 2 then
    let tparts := pySplit (parts.getD 0 "") sepTitle
    if 2 ≤ tparts.length then
      Except.ok (pyStripQuote (pyStrip (tparts.getD 1 "")),
                 pyStripQuote (pyStrip (parts.getD 1 "")))
    else Except.error errIndex
  else Except.error errFormat

/-- A row of the comparison report: old title, new title, old author,
new author, error text or `None`. -/
def CompRow : Type := List (Option String)

/-- Lines 113-135 of src/main.py, given the unpacked row and the reply
`res`: decide the branch and produce (the updated row, the comparison rows
appended for this row).  The whole parse is inside `try/except`, so this is
total: no exception escapes. -/
def apply_reply (title author : String) (rest : List String) (res : String) :
    List String × List CompRow :=
  if pyStrip (pyLower res) = "correct" then (title :: author :: rest, [])
  else
    match parse_suggestion res with
    | Except.ok (nt, na) =>
      (nt :: na :: rest, [[some title, some nt, some author, some na, Option.none]])
    | Except.error e =>
      (title :: author :: rest, [[some title, some title, some author, some author, some e]])

/-- One iteration of the verification loop (lines 109-137):
`title, author, *rest = row` raises `ValueError` on a short row; otherwise
the reply is obtained from the verifier and dispatched. -/
def verify_row (llm : String → String → Except String (Option String))
    (row : List String) : Except String (List String × List CompRow) :=
  match row with
  | title :: author :: rest =>
    Except.ok (apply_reply title author rest (verify_title_and_author (llm title author)))
  | _ => Except.error errUnpack

/-- The verification loop over all rows, accumulating `updated_rows` and
`comparison_rows`; the first uncaught exception aborts the run. -/
def verify_book_info_go (llm : String → String → Except String (Option String)) :
    List (List String) → List (List String) → List CompRow →
    Except String (List (List String) × List CompRow)
  | [], ur, cr => Except.ok (ur, cr)
  | row :: rs, ur, cr =>
    match verify_row llm row with
    | Except.error e => Except.error e
    | Except.ok (r, c) => verify_book_info_go llm rs (ur ++ [r]) (cr ++ c)

/-- `verify_book_info()` after the input CSV has been read into `rows`. -/
def verify_book_info (llm : String → String → Except String (Option String))
    (rows : List (List String)) :
    Except String (List (List String) × List CompRow) :=
  verify_book_info_go llm rows [] []

/- ------------------------------------------------------------------ -/
/- CSV store: write_csv (src/main.py lines 71-75) with Python's default
   csv dialect (QUOTE_MINIMAL, '\r\n' terminator), and the read side of
   scrape_gr_data (lines 200-203): `open(INPUT_CSV, "r")` without
   `newline=''` applies universal-newline translation to the file's text
   before `csv.reader` parses it.                                         -/

/-- QUOTE_MINIMAL: a field is quoted iff it contains the delimiter, the
quote character, or a line-terminator character. -/
def needsQuote (f : List Char) : Bool :=
  f.any (fun c => c = ',' || c = '"' || c = '\r' || c = '\n')

/-- Double each quote character inside a quoted field. -/
def escQ : List Char → List Char
  | [] => []
  | c :: cs => if c = '"' then '"' :: '"' :: escQ cs else c :: escQ cs

/-- Serialize one field. -/
def serField (f : List Char) : List Char :=
  if needsQuote f then '"' :: (escQ f ++ ['"']) else f

/-- Join serialized fields with the delimiter. -/
def joinComma : List (List Char) → List Char
  | [] => []
  | [f] => f
  | f :: fs => f ++ ',' :: joinComma fs

/-- Serialize one record.  A record consisting of a single empty field is
written as `""` (the csv writer quotes it so the line is not empty). -/
def serRecord (r : List (List Char)) : List Char :=
  match r with
  | [[]] => ['"', '"']
  | _ => joinComma (r.map serField)

/-- `write_csv(file, headers, data)`: the text written to the file —
a header line then one line per row, each terminated by `\r\n`. -/
def write_csv (headers : List String) (rows : List (List String)) : List Char :=
  List.flatten (((headers.map String.data) :: rows.map (fun r => r.map String.data)).map
    (fun r => serRecord r ++ ['\r', '\n']))

/-- Universal-newline translation performed by `open(path, "r")`:
`\r\n` and lone `\r` both become `\n`. -/
def univNewlines : List Char → List Char
  | [] => []
  | [c] => if c = '\r' then ['\n'] else [c]
  | c :: c2 :: cs =>
    if c = '\r' then
      '\n' :: (if c2 = '\n' then univNewlines cs else univNewlines (c2 :: cs))
    else c :: univNewlines (c2 :: cs)

/-- Parser state of the csv reader. -/
inductive CsvState where
  | fieldStart
  | unquoted
  | quoted
  | quotePending
deriving DecidableEq

/-- The csv reader as a character-level state machine over the translated
text: `fieldStart` at the start of a field (a quote begins a quoted field),
`unquoted` inside a plain field, `quoted` inside quotes (where delimiter and
newline are data), `quotePending` after a quote seen inside a quoted field
(a second quote is a literal quote, anything else closes the quoting).
A blank line yields the empty record, matching `csv.reader`. -/
def csvGo : CsvState → List Char → List (List Char) → List Char → List (List (List Char))
  | st, facc, racc, [] =>
    match st, racc with
    | CsvState.fieldStart, [] => []
    | _, _ => [racc ++ [facc]]
  | CsvState.fieldStart, facc, racc, c :: cs =>
    if c = '"' then csvGo CsvState.quoted facc racc cs
    else if c = ',' then csvGo CsvState.fieldStart [] (racc ++ [facc]) cs
    else if c = '\n' then
      (if racc = [] then [] :: csvGo CsvState.fieldStart [] [] cs
       else (racc ++ [facc]) :: csvGo CsvState.fieldStart [] [] cs)
    else csvGo CsvState.unquoted (facc ++ [c]) racc cs
  | CsvState.unquoted, facc, racc, c :: cs =>
    if c = ',' then csvGo CsvState.fieldStart [] (racc ++ [facc]) cs
    else if c = '\n' then (racc ++ [facc]) :: csvGo CsvState.fieldStart [] [] cs
    else csvGo CsvState.unquoted (facc ++ [c]) racc cs
  | CsvState.quoted, facc, racc, c :: cs =>
    if c = '"' then csvGo CsvState.quotePending facc racc cs
    else csvGo CsvState.quoted (facc ++ [c]) racc cs
  | CsvState.quotePending, facc, racc, c :: cs =>
    if c = '"' then csvGo CsvState.quoted (facc ++ ['"']) racc cs
    else if c = ',' then csvGo CsvState.fieldStart [] (racc ++ [facc]) cs
    else if c = '\n' then (racc ++ [facc]) :: csvGo CsvState.fieldStart [] [] cs
    else csvGo CsvState.unquoted (facc ++ [c]) racc cs

/-- Parse a whole translated file into records. -/
def parse_csv (cs : List Char) : List (List (List Char)) :=
  csvGo CsvState.fieldStart [] [] cs

/-- Lines 200-203 of src/main.py: `headers = next(reader)` (which raises
`StopIteration`, here `none`, on an empty file) then `rows = list(reader)`.
The argument is the raw file text; universal-newline translation is applied
first, as `open` does. -/
def read_csv (fileText : List Char) : Option (List String × List (List String)) :=
  match parse_csv (univNewlines fileText) with
  | [] => Option.none
  | h :: t => some (h.map String.mk, t.map (fun r => r.map String.mk))

/- ================================================================== -/
/- Claim C4: retry policy of make_request.                             -/

theorem make_request_go_spec (fetch : Nat → Option String) (maxr : Nat) :
    ∀ fuel attempt, attempt < maxr → maxr ≤ attempt + fuel →
    1 ≤ (make_request_go fetch maxr fuel attempt).2.1 ∧
    (make_request_go fetch maxr fuel attempt).2.1 ≤ maxr - attempt ∧
    (make_request_go fetch maxr fuel attempt).2.2 =
      (List.range ((make_request_go fetch maxr fuel attempt).2.1 - 1)).map
        (fun i => 2 ^ (attempt + i)) ∧
    ((∀ i, attempt ≤ i → i < maxr → fetch i = Option.none) →
      (make_request_go fetch maxr fuel attempt).1 = Option.none ∧
      (make_request_go fetch maxr fuel attempt).2.1 = maxr - attempt) := by
  intro fuel
  induction fuel with
  | zero => intro attempt h1 h2; omega
  | succ fuel ih =>
    intro attempt h1 h2
    cases hf : fetch attempt with
    | some r =>
      simp only [make_request_go, if_pos h1, hf]
      refine ⟨le_refl 1, by omega, by simp, ?_⟩
      intro hall
      exact absurd hf (by simp [hall attempt (le_refl attempt) h1])
    | none =>
      by_cases hlast : attempt = maxr - 1
      · simp only [make_request_go, if_pos h1, hf, if_pos hlast]
        refine ⟨le_refl 1, by omega, by simp, ?_⟩
        intro _
        exact ⟨by simp, by omega⟩
      · have h1a : attempt + 1 < maxr := by omega
        have h2a : maxr ≤ attempt + 1 + fuel := by omega
        obtain ⟨ihn, ihb, ihs, ihf⟩ := ih (attempt + 1) h1a h2a
        simp only [make_request_go, if_pos h1, hf, if_neg hlast]
        refine ⟨by omega, by omega, ?_, ?_⟩
        · obtain ⟨k, hk⟩ : ∃ k, (make_request_go fetch maxr fuel (attempt + 1)).2.1 = k + 1 :=
            ⟨(make_request_go fetch maxr fuel (attempt + 1)).2.1 - 1, by omega⟩
          rw [ihs, hk]
          simp only [Nat.add_sub_cancel, List.range_succ_eq_map, List.map_cons, List.map_map]
          refine congrArg₂ List.cons (by simp) ?_
          refine List.map_congr_left (fun i _ => ?_)
          simp [Function.comp]
          ring_nf
        · intro hall
          have := ihf (fun i hi1 hi2 => hall i (by omega) hi2)
          exact ⟨this.1, by omega⟩

/-- Claim C4: for every per-attempt outcome oracle and every
`max_retries > 0`, `make_request` makes at most `max_retries` attempts,
sleeps exactly `2^attempt` time units after each failed attempt except the
last one made (so the sleep list is `[2^0, …, 2^(n-2)]` when `n` attempts
are made), and when every attempt fails it returns `None` after exactly
`max_retries` attempts instead of raising. -/
theorem make_request_retry_policy (fetch : Nat → Option String) (maxr : Nat)
    (h : 0 < maxr) :
    (make_request fetch maxr).2.1 ≤ maxr ∧
    (make_request fetch maxr).2.2 =
      (List.range ((make_request fetch maxr).2.1 - 1)).map (fun i => 2 ^ i) ∧
    ((∀ i, i < maxr → fetch i = Option.none) →
      (make_request fetch maxr).1 = Option.none ∧
      (make_request fetch maxr).2.1 = maxr) := by
  obtain ⟨h1, h2, h3, h4⟩ := make_request_go_spec fetch maxr maxr 0 h (by omega)
  refine ⟨by simpa using h2, ?_, fun hall => ?_⟩
  · simpa using h3
  · have := h4 (fun i _ hi => hall i hi)
    exact ⟨this.1, by simpa using this.2⟩

/-- Witness for C4 at `max_retries = 5` with every attempt failing:
5 attempts, sleeps `[1, 2, 4, 8]`, result `None`. -/
theorem make_request_retry_policy_witness :
    0 < 5 ∧
    ((make_request (fun _ => Option.none) 5).2.1 ≤ 5 ∧
     (make_request (fun _ => Option.none) 5).2.2 =
       (List.range ((make_request (fun _ => Option.none) 5).2.1 - 1)).map (fun i => 2 ^ i) ∧
     ((∀ i, i < 5 → (fun _ => (Option.none : Option String)) i = Option.none) →
       (make_request (fun _ => Option.none) 5).1 = Option.none ∧
       (make_request (fun _ => Option.none) 5).2.1 = 5)) :=
  ⟨by decide, make_request_retry_policy (fun _ => Option.none) 5 (by decide)⟩

/- ================================================================== -/
/- Claim C2: scrape_book_data appends exactly two fields.              -/

/-- Claim C2: on any row with at least 2 fields, `scrape_book_data` never
raises and returns the input row with exactly two fields appended (so the
result is 2 longer than the input); when the fetch fails (returns `None`),
the two appended fields are both `None`. -/
theorem scrape_book_data_appends_two_fields (fetch : String → Option String)
    (row : List String) (h : 2 ≤ row.length) :
    (∃ v1 v2, scrape_book_data fetch row = Except.ok (row.map PyVal.str ++ [v1, v2])) ∧
    (∀ out, scrape_book_data fetch row = Except.ok out → out.length = row.length + 2) ∧
    (fetch (gr_search_url (row.getD 0 "") (row.getD 1 "")) = Option.none →
      scrape_book_data fetch row = Except.ok (row.map PyVal.str ++ [PyVal.none, PyVal.none])) := by
  match row with
  | title :: author :: rest =>
    refine ⟨?_, ?_, ?_⟩
    · cases hf : fetch (gr_search_url title author) with
      | none => exact ⟨PyVal.none, PyVal.none, by simp [scrape_book_data, hf]⟩
      | some body =>
        exact ⟨optRat (extract_rating body).1, optNat (extract_rating body).2,
          by simp [scrape_book_data, hf]⟩
    · intro out hout
      cases hf : fetch (gr_search_url title author) with
      | none =>
        simp only [scrape_book_data, hf] at hout
        cases hout
        simp
      | some body =>
        simp only [scrape_book_data, hf] at hout
        cases hout
        simp
    · intro hf
      simp only [List.getD_cons_zero, List.getD_cons_succ] at hf
      simp [scrape_book_data, hf]
  | [_] => simp at h
  | [] => simp at h

/-- Witness for C2: a concrete 2-field row whose fetch fails yields the row
plus `[None, None]`. -/
theorem scrape_book_data_appends_two_fields_witness :
    2 ≤ (["Dune", "Frank Herbert"] : List String).length ∧
    ((fun _ => (Option.none : Option String))
        (gr_search_url ((["Dune", "Frank Herbert"] : List String).getD 0 "")
          ((["Dune", "Frank Herbert"] : List String).getD 1 "")) = Option.none →
      scrape_book_data (fun _ => Option.none) ["Dune", "Frank Herbert"] =
        Except.ok ((["Dune", "Frank Herbert"] : List String).map PyVal.str ++
          [PyVal.none, PyVal.none])) :=
  ⟨by decide,
   (scrape_book_data_appends_two_fields (fun _ => Option.none) ["Dune", "Frank Herbert"]
     (by decide)).2.2⟩

/- ================================================================== -/
/- Claim C5: a "correct" reply keeps the row unchanged.                -/

/-- Claim C5: in the verification stage, whenever the reply normalizes
(lower-case, stripped) to `"correct"`, the row is appended unchanged to the
updated output and no comparison entry is produced. -/
theorem correct_reply_keeps_row (title author : String) (rest : List String)
    (res : String) (h : pyStrip (pyLower res) = "correct") :
    apply_reply title author rest res = (title :: author :: rest, []) := by
  simp [apply_reply, h]

/-- Witness for C5 at the reply `"Correct"` of the spec's scenario. -/
theorem correct_reply_keeps_row_witness :
    pyStrip (pyLower "Correct") = "correct" ∧
    apply_reply "Dune" "Frank Herbert" [] "Correct" = ("Dune" :: "Frank Herbert" :: [], []) :=
  ⟨by decide, correct_reply_keeps_row "Dune" "Frank Herbert" [] "Correct" (by decide)⟩

/- ================================================================== -/
/- Claim C7: an unparseable reply keeps the row and records the error. -/

/-- Claim C7: when the reply does not normalize to `"correct"` and the
suggestion parser fails with error text `e`, the original row is kept
unchanged and one comparison entry `[title, title, author, author, e]` is
recorded; the parse failure is caught, so the result is an ordinary value
(no exception escapes). -/
theorem unparseable_reply_keeps_row (title author : String) (rest : List String)
    (res e : String) (hne : pyStrip (pyLower res) ≠ "correct")
    (hp : parse_suggestion res = Except.error e) :
    apply_reply title author rest res =
      (title :: author :: rest,
       [[some title, some title, some author, some author, some e]]) := by
  simp [apply_reply, hne, hp]

/-- Witness for C7 at the unparseable reply `"No idea about this one"`. -/
theorem unparseable_reply_keeps_row_witness :
    pyStrip (pyLower "No idea about this one") ≠ "correct" ∧
    parse_suggestion "No idea about this one" = Except.error errFormat ∧
    apply_reply "Dune" "Frank Herbert" [] "No idea about this one" =
      ("Dune" :: "Frank Herbert" :: [],
       [[some "Dune", some "Dune", some "Frank Herbert", some "Frank Herbert",
         some errFormat]]) :=
  ⟨by decide, rfl,
   unparseable_reply_keeps_row "Dune" "Frank Herbert" [] "No idea about this one" errFormat
     (by decide) rfl⟩

/- ================================================================== -/
/- Claim C8: an LLM failure or absent reply is treated as "correct".   -/

/-- Claim C8: when the chat-completion call raises (any error text `e`) or
returns an absent (`None`) content, `verify_title_and_author` returns
`"correct"`, and consequently the verification step keeps the row unchanged
with no comparison entry — the failure never aborts the row. -/
theorem llm_failure_treated_as_correct
    (llm : String → String → Except String (Option String))
    (title author : String) (rest : List String)
    (h : (∃ e, llm title author = Except.error e) ∨
         llm title author = Except.ok Option.none) :
    verify_title_and_author (llm title author) = "correct" ∧
    verify_row llm (title :: author :: rest) =
      Except.ok (title :: author :: rest, []) := by
  have hc : verify_title_and_author (llm title author) = "correct" := by
    rcases h with ⟨e, he⟩ | hn
    · rw [he]; rfl
    · rw [hn]; rfl
  refine ⟨hc, ?_⟩
  simp only [verify_row, hc]
  have hcor : pyStrip (pyLower ("correct")) = "correct" := by decide
  simp [apply_reply, hcor]

def errNetwork : String := "APIConnectionError"

/-- Witness for C8: a concrete failing language-model call on a concrete row. -/
theorem llm_failure_treated_as_correct_witness :
    ((∃ e, (fun (_ _ : String) => (Except.error errNetwork : Except String (Option String)))
        "Dune" "Frank Herbert" = Except.error e) ∨
      (fun (_ _ : String) => (Except.error errNetwork : Except String (Option String)))
        "Dune" "Frank Herbert" = Except.ok Option.none) ∧
    (verify_title_and_author
        ((fun (_ _ : String) => (Except.error errNetwork : Except String (Option String)))
          "Dune" "Frank Herbert") = "correct" ∧
      verify_row (fun _ _ => Except.error errNetwork) ("Dune" :: "Frank Herbert" :: []) =
        Except.ok ("Dune" :: "Frank Herbert" :: [], [])) :=
  ⟨Or.inl ⟨errNetwork, rfl⟩,
   llm_failure_treated_as_correct (fun _ _ => Except.error errNetwork)
     "Dune" "Frank Herbert" [] (Or.inl ⟨errNetwork, rfl⟩)⟩

/- ================================================================== -/
/- Claims C10 and C1: shape of the collection loop, and abort behaviour. -/

theorem scrape_gr_data_go_ok (fetch : String → Option String)
    (rows : List (List String)) :
    ∀ (order : List Nat) (acc : List (List PyVal)),
      (∀ i ∈ order, rows.getD i [] ≠ []) →
      scrape_gr_data_go fetch rows order acc =
        Except.ok (acc ++ order.map (fun i => enrich_result fetch (rows.getD i []))) := by
  intro order
  induction order with
  | nil => intro acc _; simp [scrape_gr_data_go]
  | cons i rest ih =>
    intro acc hall
    have hi : rows.getD i [] ≠ [] := hall i (by simp)
    have hrest : ∀ j ∈ rest, rows.getD j [] ≠ [] := fun j hj => hall j (by simp [hj])
    cases hs : scrape_book_data fetch (rows.getD i []) with
    | ok d =>
      simp only [scrape_gr_data_go, hs]
      rw [ih _ hrest]
      have he : enrich_result fetch (rows.getD i []) = d := by
        unfold enrich_result; rw [hs]
      rw [List.map_cons, he, List.append_assoc, List.singleton_append]
    | error e =>
      have hlen : ¬ (rows.getD i []).length = 0 := by
        simpa [List.length_eq_zero] using hi
      simp only [scrape_gr_data_go, hs, if_neg hlen]
      rw [ih _ hrest]
      have he : enrich_result fetch (rows.getD i []) =
          (rows.getD i []).map PyVal.str ++ [PyVal.none, PyVal.none] := by
        unfold enrich_result; rw [hs]
      rw [List.map_cons, he, List.append_assoc, List.singleton_append]

theorem range_map_getD {α β : Type} (l : List α) (d : α) (f : α → β) :
    (List.range l.length).map (fun i => f (l.getD i d)) = l.map f := by
  induction l with
  | nil => simp
  | cons x xs ih =>
    simp only [List.length_cons, List.range_succ_eq_map, List.map_cons, List.map_map]
    refine congrArg₂ List.cons (by simp) ?_
    rw [← ih]
    refine List.map_congr_left (fun i _ => ?_)
    simp [Function.comp]

/-- Claim C10 (amended): for every list of input rows each of which is
non-empty, every fetch oracle, and every completion order (a permutation of
the row indices, as the thread pool guarantees), the collection loop of
`scrape_gr_data` appends exactly one result per input row — the task's value
or, on task failure, the original row with two `None` fields — so the output
has the same length as the input and is a permutation of the per-row
enrichment results. -/
theorem scrape_gr_data_one_result_per_row (fetch : String → Option String)
    (rows : List (List String)) (order : List Nat)
    (hrows : ∀ r ∈ rows, r ≠ [])
    (horder : order.Perm (List.range rows.length)) :
    scrape_gr_data fetch order rows =
      Except.ok (order.map (fun i => enrich_result fetch (rows.getD i []))) ∧
    (order.map (fun i => enrich_result fetch (rows.getD i []))).length = rows.length ∧
    (order.map (fun i => enrich_result fetch (rows.getD i []))).Perm
      (rows.map (enrich_result fetch)) := by
  have hvalid : ∀ i ∈ order, rows.getD i [] ≠ [] := by
    intro i hi
    have hlt : i < rows.length := by
      have := horder.mem_iff.mp hi
      simpa using this
    have hmem : rows.getD i [] ∈ rows := by
      rw [List.getD_eq_getElem rows [] hlt]
      exact List.getElem_mem hlt
    exact hrows _ hmem
  refine ⟨?_, ?_, ?_⟩
  · simpa using scrape_gr_data_go_ok fetch rows order [] hvalid
  · simpa using horder.length_eq
  · have h1 : (order.map (fun i => enrich_result fetch (rows.getD i []))).Perm
        ((List.range rows.length).map (fun i => enrich_result fetch (rows.getD i []))) :=
      horder.map _
    rw [range_map_getD rows [] (enrich_result fetch)] at h1
    exact h1

/-- Witness for C10 on a concrete two-row input with reversed completion
order and a failing fetch. -/
theorem scrape_gr_data_one_result_per_row_witness :
    (∀ r ∈ [["t", "a"], ["u", "v"]], r ≠ ([] : List String)) ∧
    ([1, 0] : List Nat).Perm (List.range ([["t", "a"], ["u", "v"]] : List (List String)).length) ∧
    (scrape_gr_data (fun _ => Option.none) [1, 0] [["t", "a"], ["u", "v"]] =
      Except.ok (([1, 0] : List Nat).map
        (fun i => enrich_result (fun _ => Option.none)
          (([["t", "a"], ["u", "v"]] : List (List String)).getD i []))) ∧
     (([1, 0] : List Nat).map
        (fun i => enrich_result (fun _ => Option.none)
          (([["t", "a"], ["u", "v"]] : List (List String)).getD i []))).length =
        ([["t", "a"], ["u", "v"]] : List (List String)).length ∧
     (([1, 0] : List Nat).map
        (fun i => enrich_result (fun _ => Option.none)
          (([["t", "a"], ["u", "v"]] : List (List String)).getD i []))).Perm
        (([["t", "a"], ["u", "v"]] : List (List String)).map
          (enrich_result (fun _ => Option.none)))) :=
  ⟨by decide, by decide,
   scrape_gr_data_one_result_per_row (fun _ => Option.none) [["t", "a"], ["u", "v"]]
     [1, 0] (by decide) (by decide)⟩

/-- Counterexample to C10 as literally stated: on an input containing an
empty row, the enrichment task fails (`title, author, *_ = row` raises) and
the collection loop's own handler then evaluates `row[0]`, raising an
uncaught `IndexError` — no output row list is produced at all, so it is not
of the input's length. -/
theorem scrape_gr_data_empty_row_aborts :
    scrape_gr_data (fun _ => Option.none) [0] [[]] = Except.error errIndexRow := rfl

theorem verify_book_info_go_ok (llm : String → String → Except String (Option String)) :
    ∀ (rows : List (List String)) (ur : List (List String)) (cr : List CompRow),
      (∀ r ∈ rows, 2 ≤ r.length) →
      ∃ out, verify_book_info_go llm rows ur cr = Except.ok out := by
  intro rows
  induction rows with
  | nil => intro ur cr _; exact ⟨(ur, cr), rfl⟩
  | cons row rs ih =>
    intro ur cr hall
    have hrow : 2 ≤ row.length := hall row (by simp)
    have hrs : ∀ r ∈ rs, 2 ≤ r.length := fun r hr => hall r (by simp [hr])
    match row, hrow with
    | title :: author :: rest, _ =>
      simp only [verify_book_info_go, verify_row]
      exact ih _ _ hrs

/-- Claim C1 (amended): provided every input row has at least 2 fields, no
stage raises an uncaught exception: the verification stage and the
enrichment pipeline both return ordinary values for every language-model
oracle, fetch oracle and completion order.  (Without that proviso the claim
fails: see the counterexample.) -/
theorem pipeline_no_abort_on_wellformed_rows
    (rows : List (List String))
    (llm : String → String → Except String (Option String))
    (fetch : String → Option String) (order : List Nat)
    (hrows : ∀ r ∈ rows, 2 ≤ r.length)
    (horder : order.Perm (List.range rows.length)) :
    (∃ out, verify_book_info llm rows = Except.ok out) ∧
    (∃ res, scrape_gr_data fetch order rows = Except.ok res) := by
  refine ⟨verify_book_info_go_ok llm rows [] [] hrows, ?_⟩
  have hvalid : ∀ i ∈ order, rows.getD i [] ≠ [] := by
    intro i hi
    have hlt : i < rows.length := by
      have := horder.mem_iff.mp hi
      simpa using this
    have hmem : rows.getD i [] ∈ rows := by
      rw [List.getD_eq_getElem rows [] hlt]
      exact List.getElem_mem hlt
    have := hrows _ hmem
    intro hemp
    rw [hemp] at this
    simp at this
  exact ⟨_, scrape_gr_data_go_ok fetch rows order [] hvalid⟩

/-- Witness for C1 on a concrete well-formed input. -/
theorem pipeline_no_abort_on_wellformed_rows_witness :
    (∀ r ∈ [["Dune", "Frank Herbert", "extra"]], 2 ≤ (r : List String).length) ∧
    ([0] : List Nat).Perm (List.range ([["Dune", "Frank Herbert", "extra"]] : List (List String)).length) ∧
    ((∃ out, verify_book_info (fun _ _ => Except.ok (some "correct"))
        [["Dune", "Frank Herbert", "extra"]] = Except.ok out) ∧
     (∃ res, scrape_gr_data (fun _ => Option.none) [0]
        [["Dune", "Frank Herbert", "extra"]] = Except.ok res)) :=
  ⟨by decide, by decide,
   pipeline_no_abort_on_wellformed_rows [["Dune", "Frank Herbert", "extra"]]
     (fun _ _ => Except.ok (some "correct")) (fun _ => Option.none) [0]
     (by decide) (by decide)⟩

/-- Counterexample to C1 as literally stated: on an input CSV containing a
row with a single field, the verification stage's unpacking
`title, author, *rest = row` raises an uncaught `ValueError` which aborts
the run — the failure does not degrade to keeping best-available data. -/
theorem short_row_aborts_verification :
    verify_book_info (fun _ _ => Except.ok (some "correct")) [["only"]] =
      Except.error errUnpack := rfl

/- ================================================================== -/
/- Claim C6: helper lemmas on Python split / strip.                    -/

theorem litMatch_self_append (l r : List Char) : litMatch l (l ++ r) = some r := by
  induction l with
  | nil => rfl
  | cons c cs ih => simp [litMatch, ih]

theorem litMatch_some : ∀ (l cs r : List Char), litMatch l cs = some r → cs = l ++ r := by
  intro l
  induction l with
  | nil =>
    intro cs r h
    simp only [litMatch, Option.some.injEq] at h
    simp [h]
  | cons x xs ih =>
    intro cs r h
    cases cs with
    | nil => simp [litMatch] at h
    | cons c cs2 =>
      simp only [litMatch] at h
      split at h
      · rename_i hc
        rw [hc]
        simpa using ih cs2 r h
      · exact absurd h (by simp)

theorem splitGo_noocc (s0 : Char) (sr : List Char) :
    ∀ (cs : List Char), containsSub s0 sr cs = false → ∀ (k : Nat) (acc : List Char),
      splitGo s0 sr (cs.length + k) cs acc = [acc.reverse ++ cs] := by
  intro cs
  induction cs with
  | nil => intro _ k acc; simp [splitGo]
  | cons c rest ih =>
    intro h k acc
    simp only [containsSub, Bool.or_eq_false_iff, Bool.and_eq_false_iff] at h
    obtain ⟨h1, h2⟩ := h
    have hl : (c :: rest).length + k = (rest.length + k) + 1 := by simp; omega
    rw [hl]
    by_cases hc : c = s0
    · have hlm : litMatch sr rest = Option.none := by
        rcases h1 with h1 | h1
        · simp [hc] at h1
        · cases hlm2 : litMatch sr rest with
          | none => rfl
          | some r => rw [hlm2] at h1; simp at h1
      simp only [splitGo, if_pos hc, hlm]
      rw [ih h2 k (c :: acc)]
      simp
    · simp only [splitGo, if_neg hc]
      rw [ih h2 k (c :: acc)]
      simp

theorem splitGo_hit (s0 : Char) (sr : List Char) (b acc : List Char) (k : Nat) :
    splitGo s0 sr (k + 1) (s0 :: (sr ++ b)) acc = acc.reverse :: splitGo s0 sr k b [] := by
  simp [splitGo, litMatch_self_append]

theorem split_sep_first (s0 : Char) (sr b : List Char)
    (hb : containsSub s0 sr b = false) :
    splitGo s0 sr ((s0 :: sr) ++ b).length ((s0 :: sr) ++ b) [] = [[], b] := by
  have : (s0 :: sr) ++ b = s0 :: (sr ++ b) := by simp
  rw [this]
  have hlen : (s0 :: (sr ++ b)).length = (sr.length + b.length) + 1 := by simp
  rw [hlen, splitGo_hit s0 sr b [] (sr.length + b.length)]
  rw [Nat.add_comm sr.length b.length, splitGo_noocc s0 sr b hb sr.length []]
  simp

theorem dropWhile_of_head_false (p : Char → Bool) :
    ∀ (l : List Char), (∀ c, l.head? = some c → p c = false) → l.dropWhile p = l := by
  intro l h
  cases l with
  | nil => rfl
  | cons c t =>
    have := h c rfl
    simp [List.dropWhile_cons, this]

theorem stripChars_front_pos (p : Char → Bool) (x : Char) (hx : p x = true)
    (l : List Char) : stripChars p (x :: l) = stripChars p l := by
  simp [stripChars, List.dropWhile_cons, hx]

theorem stripChars_closed (p : Char → Bool) (x y : Char) (m : List Char)
    (hx : p x = false) (hy : p y = false) :
    stripChars p (x :: (m ++ [y])) = x :: (m ++ [y]) := by
  unfold stripChars
  have h1 : (x :: (m ++ [y])).dropWhile p = x :: (m ++ [y]) := by
    simp [List.dropWhile_cons, hx]
  rw [h1]
  have h2 : (x :: (m ++ [y])).reverse = y :: (m.reverse ++ [x]) := by simp
  rw [h2]
  have h3 : (y :: (m.reverse ++ [x])).dropWhile p = y :: (m.reverse ++ [x]) := by
    simp [List.dropWhile_cons, hy]
  rw [h3]
  simp

theorem stripQuote_wrap (X : List Char) (h1 : X.head? ≠ some quoteC)
    (h2 : X.getLast? ≠ some quoteC) :
    stripChars (fun c => c = quoteC) (quoteC :: (X ++ [quoteC])) = X := by
  cases X with
  | nil => rfl
  | cons x X2 =>
    have hx : ((x = quoteC) : Bool) = false := by
      simp only [List.head?_cons, Ne, Option.some.injEq] at h1
      simpa using h1
    unfold stripChars
    have s1 : (quoteC :: ((x :: X2) ++ [quoteC])).dropWhile (fun c => c = quoteC) =
        ((x :: X2) ++ [quoteC]).dropWhile (fun c => c = quoteC) := by
      simp [List.dropWhile_cons]
    have s2 : ((x :: X2) ++ [quoteC]).dropWhile (fun c => c = quoteC) =
        (x :: X2) ++ [quoteC] := by
      simp only [List.cons_append]
      simp [List.dropWhile_cons, hx]
    rw [s1, s2]
    have s3 : ((x :: X2) ++ [quoteC]).reverse = quoteC :: (x :: X2).reverse := by simp
    rw [s3]
    have s4 : (quoteC :: (x :: X2).reverse).dropWhile (fun c => c = quoteC) =
        ((x :: X2).reverse).dropWhile (fun c => c = quoteC) := by
      simp [List.dropWhile_cons]
    rw [s4]
    have s5 : ((x :: X2).reverse).dropWhile (fun c => c = quoteC) = (x :: X2).reverse := by
      refine dropWhile_of_head_false _ _ (fun c hc => ?_)
      rw [List.head?_reverse] at hc
      have : c ≠ quoteC := fun heq => h2 (by rw [← heq]; exact hc)
      simpa using this
    rw [s5]
    simp

theorem containsTitle_append (X : List Char)
    (h : containsSub 't' ("itle:").data X = false) :
    containsSub 't' ("itle:").data (X ++ [quoteC]) = false := by
  induction X with
  | nil => decide
  | cons c X2 ih =>
    simp only [containsSub, Bool.or_eq_false_iff, Bool.and_eq_false_iff] at h
    obtain ⟨h1, h2⟩ := h
    simp only [List.cons_append, containsSub, Bool.or_eq_false_iff, Bool.and_eq_false_iff]
    refine ⟨?_, ih h2⟩
    rcases h1 with h1 | h1
    · exact Or.inl h1
    · right
      cases hlm : litMatch ("itle:").data (X2 ++ [quoteC]) with
      | none => rfl
      | some r =>
        exfalso
        have heq := litMatch_some _ _ _ hlm
        rcases List.eq_nil_or_concat r with hr | ⟨r2, y, hr⟩
        · rw [hr, List.append_nil] at heq
          have hq : (X2 ++ [quoteC]).getLast? = some quoteC := List.getLast?_concat _
          rw [heq] at hq
          have : (("itle:").data).getLast? = some ':' := by decide
          rw [this] at hq
          exact absurd (Option.some.inj hq) (by decide)
        · rw [hr] at heq
          rw [List.concat_eq_append, ← List.append_assoc] at heq
          have hinj := List.append_inj' heq (by simp)
          have hX2 : X2 = ("itle:").data ++ r2 := hinj.1
          have : litMatch ("itle:").data X2 = some r2 := by
            rw [hX2]; exact litMatch_self_append _ _
          rw [this] at h1
          simp at h1

/-- The single-quote as a string. -/
def quoteS : String := String.mk [quoteC]

/-- A reply of the shape the parser expects: `title: '<T>', author: '<A>'`. -/
def mkSuggestion (T A : String) : String :=
  "title: " ++ quoteS ++ T ++ quoteS ++ ", author: " ++ quoteS ++ A ++ quoteS

/-- The quoted payload ` '<X>'` that follows each keyword in the reply. -/
def wrapChars (X : String) : List Char := ' ' :: quoteC :: (X.data ++ [quoteC])

/-- The part of the reply before the `", author:"` separator. -/
def aChars (T : String) : List Char := ("title:").data ++ wrapChars T

theorem mkSuggestion_data (T A : String) :
    (mkSuggestion T A).data = aChars T ++ sepAuthor.data ++ wrapChars A := by
  simp only [mkSuggestion, quoteS, aChars, wrapChars, sepAuthor, quoteC, String.data_append]
  simp [List.append_assoc]

theorem replaceNl_eq_self (s : String) (h : '\n' ∉ s.data) : replaceNl s = s := by
  unfold replaceNl
  have : s.data.map (fun c => if c = '\n' then ' ' else c) = s.data := by
    conv_rhs => rw [← List.map_id s.data]
    refine List.map_congr_left (fun c hc => ?_)
    have hcne : c ≠ '\n' := fun he => h (he ▸ hc)
    simp [hcne]
  rw [this]

theorem stripChars_head_t (l : List Char) :
    ∃ l2, stripChars isPySpace ('t' :: l) = 't' :: l2 := by
  unfold stripChars
  have hts : isPySpace 't' = false := by decide
  have h1 : ('t' :: l).dropWhile isPySpace = 't' :: l := by
    simp [List.dropWhile_cons, hts]
  rw [h1, List.reverse_cons]
  rw [List.dropWhile_append]
  by_cases he : (l.reverse.dropWhile isPySpace).isEmpty
  · rw [if_pos he]
    exact ⟨[], by simp [List.dropWhile_cons, hts]⟩
  · rw [if_neg he]
    exact ⟨(l.reverse.dropWhile isPySpace).reverse, by simp⟩

theorem mkSuggestion_ne_correct (T A : String) :
    pyStrip (pyLower (mkSuggestion T A)) ≠ "correct" := by
  have hdat : ∃ tail, (mkSuggestion T A).data = 't' :: tail := by
    rw [mkSuggestion_data]
    exact ⟨("itle:").data ++ wrapChars T ++ sepAuthor.data ++ wrapChars A, by
      simp [aChars, List.append_assoc]⟩
  obtain ⟨tail, htail⟩ := hdat
  have hlow : (pyLower (mkSuggestion T A)).data = 't' :: tail.map lowerChar := by
    show ((mkSuggestion T A).data.map lowerChar) = _
    rw [htail]
    simp [List.map_cons]
    decide
  intro heq
  have hdata := congrArg String.data heq
  have hs : (pyStrip (pyLower (mkSuggestion T A))).data =
      stripChars isPySpace ('t' :: tail.map lowerChar) := by
    show stripChars isPySpace (pyLower (mkSuggestion T A)).data = _
    rw [hlow]
  obtain ⟨l2, hl2⟩ := stripChars_head_t (tail.map lowerChar)
  rw [hs, hl2] at hdata
  have : 't' = 'c' := by
    have hcor : ("correct").data = 'c' :: ("orrect").data := by decide
    rw [hcor] at hdata
    exact (List.cons.injEq _ _ _ _ ▸ hdata).1
  exact absurd this (by decide)

theorem wrap_no_title (T : String)
    (hTt : containsSub 't' ("itle:").data T.data = false) :
    containsSub 't' ("itle:").data (wrapChars T) = false := by
  have hb2 := containsTitle_append T.data hTt
  show containsSub 't' ("itle:").data (' ' :: (quoteC :: (T.data ++ [quoteC]))) = false
  simp only [containsSub, Bool.or_eq_false_iff, Bool.and_eq_false_iff]
  refine ⟨Or.inl (by decide), ⟨Or.inl (by decide), ?_⟩⟩
  simpa using hb2

theorem strip_wrap (X : String) (h1 : X.data.head? ≠ some quoteC)
    (h2 : X.data.getLast? ≠ some quoteC) :
    pyStripQuote (pyStrip (String.mk (wrapChars X))) = X := by
  have hw : stripChars isPySpace (wrapChars X) = quoteC :: (X.data ++ [quoteC]) := by
    show stripChars isPySpace (' ' :: (quoteC :: (X.data ++ [quoteC]))) = _
    rw [stripChars_front_pos isPySpace ' ' (by decide)]
    exact stripChars_closed isPySpace quoteC quoteC X.data (by decide) (by decide)
  have hq : stripChars (fun c => c = quoteC) (quoteC :: (X.data ++ [quoteC])) = X.data :=
    stripQuote_wrap X.data h1 h2
  show String.mk (stripChars (fun c => c = quoteC)
      (stripChars isPySpace (wrapChars X))) = X
  rw [hw, hq]

/- ================================================================== -/
/- Claim C3: the rating extraction finds the first (leftmost) match.   -/

/-- Every character is a decimal digit. -/
def allDigits (cs : List Char) : Prop := ∀ c ∈ cs, c.isDigit = true

/-- The shape of capture group 1, `\d+\.\d+`. -/
def FloatShape (g : List Char) : Prop :=
  ∃ a b, g = a ++ quoteDot :: b ∧ a ≠ [] ∧ b ≠ [] ∧ allDigits a ∧ allDigits b

/-- The shape of capture group 2, `\d+,?\d*`. -/
def CountShape (g : List Char) : Prop :=
  (g ≠ [] ∧ allDigits g) ∨
  (∃ a b, g = a ++ ',' :: b ∧ a ≠ [] ∧ allDigits a ∧ allDigits b)

/-- The whole pattern matches at the start of `cs` with groups `g1`, `g2`:
`cs` begins `<g1> avg rating<anything><g2> ratings`. -/
def DecompAt (cs g1 g2 : List Char) : Prop :=
  ∃ mid post, cs = g1 ++ litAvgRating ++ mid ++ g2 ++ litRatings ++ post ∧
    FloatShape g1 ∧ CountShape g2

/-- Some pair of groups matches at the start of `cs`. -/
def HasMatch (cs : List Char) : Prop := ∃ g1 g2, DecompAt cs g1 g2

theorem tryEach_eq_some {α β : Type} :
    ∀ (l : List α) (k : α → Option β) (b : β),
      tryEach l k = some b → ∃ a ∈ l, k a = some b := by
  intro l
  induction l with
  | nil => intro k b h; simp [tryEach] at h
  | cons x xs ih =>
    intro k b h
    simp only [tryEach] at h
    cases hx : k x with
    | some b2 =>
      rw [hx] at h
      refine ⟨x, by simp, ?_⟩
      rw [hx]
      exact h
    | none =>
      rw [hx] at h
      obtain ⟨a, ha, hk⟩ := ih k b h
      exact ⟨a, by simp [ha], hk⟩

theorem tryEach_isSome_intro {α β : Type} :
    ∀ (l : List α) (k : α → Option β) (a : α),
      a ∈ l → (k a).isSome → (tryEach l k).isSome := by
  intro l
  induction l with
  | nil => intro k a ha _; simp at ha
  | cons x xs ih =>
    intro k a ha hk
    simp only [tryEach]
    cases hx : k x with
    | some b => simp
    | none =>
      rcases List.mem_cons.mp ha with h | h
      · rw [h, hx] at hk; simp at hk
      · exact ih k a h hk

theorem mem_take_subset {α : Type} : ∀ (n : Nat) (u : List α) (c : α),
    c ∈ u.take n → c ∈ u := by
  intro n
  induction n with
  | zero => intro u c h; simp at h
  | succ m ih =>
    intro u c h
    cases u with
    | nil => simp at h
    | cons x t =>
      rcases List.mem_cons.mp h with h | h
      · simp [h]
      · exact List.mem_cons.mpr (Or.inr (ih t c h))

theorem mem_takeWhile_pred (p : Char → Bool) :
    ∀ (l : List Char) (c : Char), c ∈ l.takeWhile p → p c = true := by
  intro l
  induction l with
  | nil => intro c h; simp [List.takeWhile] at h
  | cons x t ih =>
    intro c h
    cases hx : p x with
    | true =>
      rw [List.takeWhile_cons_of_pos hx] at h
      rcases List.mem_cons.mp h with h | h
      · rw [h]; exact hx
      · exact ih c h
    | false => rw [List.takeWhile_cons_of_neg (by simp [hx])] at h; simp at h

theorem take_append_le {α : Type} : ∀ (u v : List α) (n : Nat),
    n ≤ u.length → (u ++ v).take n = u.take n := by
  intro u
  induction u with
  | nil => intro v n h; simp at h; simp [h]
  | cons x t ih =>
    intro v n h
    cases n with
    | zero => simp
    | succ m => simp only [List.cons_append, List.take_succ_cons]
                rw [ih v m (by simpa using h)]

theorem allDigits_take (cs : List Char) (n : Nat) (h : n ≤ digitsPrefixLen cs) :
    allDigits (cs.take n) := by
  intro c hc
  have hsplit : cs = cs.takeWhile Char.isDigit ++ cs.dropWhile Char.isDigit :=
    (List.takeWhile_append_dropWhile Char.isDigit cs).symm
  rw [hsplit, take_append_le _ _ n h] at hc
  exact mem_takeWhile_pred Char.isDigit _ c (mem_take_subset n _ c hc)

theorem length_take_eq (cs : List Char) (n : Nat) (h : n ≤ digitsPrefixLen cs) :
    (cs.take n).length = n := by
  have h2 : digitsPrefixLen cs ≤ cs.length := by
    simpa [digitsPrefixLen] using (List.takeWhile_sublist Char.isDigit).length_le
  simp [List.length_take]
  omega

theorem takeWhile_all_append (p : Char → Bool) :
    ∀ (a b : List Char), (∀ c ∈ a, p c = true) →
      (a ++ b).takeWhile p = a ++ b.takeWhile p := by
  intro a
  induction a with
  | nil => intro b _; simp
  | cons x t ih =>
    intro b h
    have hx : p x = true := h x (by simp)
    simp only [List.cons_append, List.takeWhile_cons_of_pos hx]
    rw [ih b (fun c hc => h c (by simp [hc]))]

theorem dpl_append (a : List Char) (x : Char) (r : List Char)
    (ha : allDigits a) (hx : x.isDigit = false) :
    digitsPrefixLen (a ++ x :: r) = a.length := by
  unfold digitsPrefixLen
  rw [takeWhile_all_append Char.isDigit a (x :: r) ha]
  rw [List.takeWhile_cons_of_neg (by simp [hx])]
  simp

theorem dpl_pos_mem (cs : List Char) (n : Nat)
    (h1 : 1 ≤ n) (h2 : n ≤ digitsPrefixLen cs) : n ∈ plusCands cs := by
  simp only [plusCands, List.mem_map, List.mem_range]
  exact ⟨digitsPrefixLen cs - n, by omega, by omega⟩

theorem mem_plusCands_elim (cs : List Char) (n : Nat) (h : n ∈ plusCands cs) :
    1 ≤ n ∧ n ≤ digitsPrefixLen cs := by
  simp only [plusCands, List.mem_map, List.mem_range] at h
  obtain ⟨t, ht, heq⟩ := h
  omega

theorem mem_starCands_intro (cs : List Char) (n : Nat)
    (h : n ≤ digitsPrefixLen cs) : n ∈ starCands cs := by
  simp only [starCands, List.mem_map, List.mem_range]
  exact ⟨digitsPrefixLen cs - n, by omega, by omega⟩

theorem mem_starCands_elim (cs : List Char) (n : Nat) (h : n ∈ starCands cs) :
    n ≤ digitsPrefixLen cs := by
  simp only [starCands, List.mem_map, List.mem_range] at h
  obtain ⟨t, ht, heq⟩ := h
  omega

theorem mem_lazyCands_intro (cs : List Char) (j : Nat) (h : j ≤ cs.length) :
    j ∈ lazyCands cs := by
  simp [lazyCands, List.mem_range]
  omega

theorem mem_commaCands_elim (cs : List Char) (nc : Nat) (h : nc ∈ commaCands cs) :
    nc = 0 ∨ (nc = 1 ∧ ∃ t, cs = ',' :: t) := by
  cases cs with
  | nil =>
    simp [commaCands] at h
    exact Or.inl h
  | cons c t =>
    by_cases hc : c = ','
    · subst hc
      simp [commaCands] at h
      rcases h with h | h
      · exact Or.inr ⟨h, t, rfl⟩
      · exact Or.inl h
    · simp [commaCands, hc] at h
      exact Or.inl h

theorem zero_mem_commaCands (cs : List Char) : 0 ∈ commaCands cs := by
  cases cs with
  | nil => simp [commaCands]
  | cons c t =>
    by_cases hc : c = ','
    · simp [commaCands, hc]
    · simp [commaCands, hc]

theorem one_mem_commaCands (t : List Char) : 1 ∈ commaCands (',' :: t) := by
  simp [commaCands]

theorem take_nonempty (cs : List Char) (n : Nat)
    (h1 : 1 ≤ n) (h2 : n ≤ digitsPrefixLen cs) : cs.take n ≠ [] := by
  intro heq
  have := length_take_eq cs n h2
  rw [heq] at this
  simp at this
  omega

theorem matchCount_sound (cs g2 : List Char) (h : matchCount cs = some g2) :
    ∃ post, cs = g2 ++ litRatings ++ post ∧ CountShape g2 := by
  unfold matchCount at h
  obtain ⟨n3, hn3, h⟩ := tryEach_eq_some _ _ _ h
  obtain ⟨nc, hnc, h⟩ := tryEach_eq_some _ _ _ h
  obtain ⟨n4, hn4, h⟩ := tryEach_eq_some _ _ _ h
  cases hlm : litMatch litRatings (((cs.drop n3).drop nc).drop n4) with
  | none => rw [hlm] at h; simp at h
  | some post =>
    rw [hlm] at h
    simp only [Option.map_some'] at h
    have hg2 : g2 = cs.take n3 ++ ((cs.drop n3).take nc ++ ((cs.drop n3).drop nc).take n4) := by
      rw [← Option.some.inj h]
      simp [List.append_assoc]
    obtain ⟨hn3a, hn3b⟩ := mem_plusCands_elim _ _ hn3
    have hn4b := mem_starCands_elim _ _ hn4
    have e4 : ((cs.drop n3).drop nc).drop n4 = litRatings ++ post := litMatch_some _ _ _ hlm
    refine ⟨post, ?_, ?_⟩
    · rw [hg2]
      simp only [List.append_assoc]
      rw [← e4, List.take_append_drop, List.take_append_drop, List.take_append_drop]
    · rcases mem_commaCands_elim _ _ hnc with h0 | ⟨h1, t, ht⟩
      · subst h0
        left
        constructor
        · rw [hg2]
          intro hemp
          rcases List.append_eq_nil.mp hemp with ⟨he1, _⟩
          exact take_nonempty cs n3 hn3a hn3b he1
        · intro c hc
          rw [hg2] at hc
          rcases List.mem_append.mp hc with hc | hc
          · exact allDigits_take cs n3 hn3b c hc
          · rcases List.mem_append.mp hc with hc | hc
            · simp at hc
            · have : c ∈ ((cs.drop n3).drop 0).take n4 := by simpa using hc
              exact allDigits_take _ n4 (by simpa using hn4b) c this
      · subst h1
        right
        refine ⟨cs.take n3, ((cs.drop n3).drop 1).take n4, ?_, ?_, ?_, ?_⟩
        · rw [hg2, ht]
          simp
        · exact take_nonempty cs n3 hn3a hn3b
        · exact allDigits_take cs n3 hn3b
        · exact allDigits_take _ n4 hn4b

theorem matchCount_complete (g2 post : List Char) (hshape : CountShape g2) :
    (matchCount (g2 ++ litRatings ++ post)).isSome := by
  have hlitR : litRatings = ' ' :: ("ratings").data := by decide
  rcases hshape with ⟨hne, hdig⟩ | ⟨a, b, hg, hane, hadig, hbdig⟩
  · -- all-digit group
    have hdpl : digitsPrefixLen (g2 ++ litRatings ++ post) = g2.length := by
      rw [List.append_assoc, hlitR]
      exact dpl_append g2 ' ' _ hdig (by decide)
    unfold matchCount
    refine tryEach_isSome_intro _ _ g2.length
      (dpl_pos_mem _ _ (by cases g2 with | nil => exact absurd rfl hne | cons x t => simp) (by omega)) ?_
    rw [List.append_assoc, List.drop_left]
    refine tryEach_isSome_intro _ _ 0 (zero_mem_commaCands _) ?_
    simp only [List.drop_zero]
    refine tryEach_isSome_intro _ _ 0 (mem_starCands_intro _ 0 (by omega)) ?_
    simp only [List.drop_zero]
    rw [litMatch_self_append]
    simp
  · -- digits, comma, digits
    have hassoc : g2 ++ litRatings ++ post = a ++ (',' :: (b ++ (litRatings ++ post))) := by
      rw [hg]
      simp [List.append_assoc]
    have hdpl : digitsPrefixLen (g2 ++ litRatings ++ post) = a.length := by
      rw [hassoc]
      exact dpl_append a ',' _ hadig (by decide)
    unfold matchCount
    refine tryEach_isSome_intro _ _ a.length
      (dpl_pos_mem _ _ (by cases a with | nil => exact absurd rfl hane | cons x t => simp) (by omega)) ?_
    rw [hassoc, List.drop_left]
    refine tryEach_isSome_intro _ _ 1 (one_mem_commaCands _) ?_
    have hdrop1 : (',' :: (b ++ (litRatings ++ post))).drop 1 = b ++ (litRatings ++ post) := rfl
    rw [hdrop1]
    have hdplb : digitsPrefixLen (b ++ (litRatings ++ post)) = b.length := by
      rw [hlitR]
      exact dpl_append b ' ' _ hbdig (by decide)
    refine tryEach_isSome_intro _ _ b.length (mem_starCands_intro _ _ (by omega)) ?_
    rw [List.drop_left]
    rw [litMatch_self_append]
    simp

theorem matchAt_sound (cs g1 g2 : List Char) (h : matchAt cs = some (g1, g2)) :
    DecompAt cs g1 g2 := by
  unfold matchAt at h
  obtain ⟨n1, hn1, h⟩ := tryEach_eq_some _ _ _ h
  rw [Option.bind_eq_some] at h
  obtain ⟨cs2, hdot, h⟩ := h
  obtain ⟨n2, hn2, h⟩ := tryEach_eq_some _ _ _ h
  rw [Option.bind_eq_some] at h
  obtain ⟨cs3, havg, h⟩ := h
  obtain ⟨j, hj, h⟩ := tryEach_eq_some _ _ _ h
  cases hmc : matchCount (cs3.drop j) with
  | none => rw [hmc] at h; simp at h
  | some g2c =>
    rw [hmc] at h
    simp only [Option.map_some', Option.some.injEq, Prod.mk.injEq] at h
    obtain ⟨hg1, hg2⟩ := h
    obtain ⟨post, hdec, hshape⟩ := matchCount_sound _ _ hmc
    obtain ⟨hn1a, hn1b⟩ := mem_plusCands_elim _ _ hn1
    obtain ⟨hn2a, hn2b⟩ := mem_plusCands_elim _ _ hn2
    have hdot2 : cs.drop n1 = quoteDot :: cs2 := by
      have := litMatch_some _ _ _ hdot
      simpa using this
    have havg2 : cs2.drop n2 = litAvgRating ++ cs3 := litMatch_some _ _ _ havg
    refine ⟨cs3.take j, post, ?_, ?_, ?_⟩
    · have e1 : cs = cs.take n1 ++ (quoteDot :: cs2) := by
        rw [← hdot2, List.take_append_drop]
      have e2 : cs2 = cs2.take n2 ++ (litAvgRating ++ cs3) := by
        rw [← havg2, List.take_append_drop]
      have e3 : cs3 = cs3.take j ++ (g2c ++ (litRatings ++ post)) := by
        conv_lhs => rw [← List.take_append_drop j cs3]
        rw [hdec]
        simp [List.append_assoc]
      calc cs = cs.take n1 ++ (quoteDot :: cs2) := e1
        _ = cs.take n1 ++ (quoteDot :: (cs2.take n2 ++ (litAvgRating ++ cs3))) :=
            congrArg (fun z => cs.take n1 ++ (quoteDot :: z)) e2
        _ = cs.take n1 ++ (quoteDot :: (cs2.take n2 ++ (litAvgRating ++
              (cs3.take j ++ (g2c ++ (litRatings ++ post)))))) :=
            congrArg (fun z => cs.take n1 ++ (quoteDot ::
              (cs2.take n2 ++ (litAvgRating ++ z)))) e3
        _ = g1 ++ litAvgRating ++ cs3.take j ++ g2 ++ litRatings ++ post := by
            rw [← hg1, ← hg2]
            simp [List.append_assoc]
    · refine ⟨cs.take n1, cs2.take n2, hg1.symm, ?_, ?_, ?_, ?_⟩
      · exact take_nonempty cs n1 hn1a hn1b
      · exact take_nonempty cs2 n2 hn2a hn2b
      · exact allDigits_take cs n1 hn1b
      · exact allDigits_take cs2 n2 hn2b
    · rw [← hg2]; exact hshape

theorem matchAt_complete (cs g1 g2 : List Char) (h : DecompAt cs g1 g2) :
    (matchAt cs).isSome := by
  obtain ⟨mid, post, hcs, ⟨a, b, hg1, hane, hbne, hadig, hbdig⟩, hshape⟩ := h
  have hlitA : litAvgRating = ' ' :: ("avg rating").data := by decide
  have hcs2 : cs = a ++ (quoteDot :: (b ++ (litAvgRating ++
      (mid ++ (g2 ++ (litRatings ++ post)))))) := by
    rw [hcs, hg1]
    simp [List.append_assoc]
  have hdpl : digitsPrefixLen cs = a.length := by
    rw [hcs2]
    exact dpl_append a quoteDot _ hadig (by decide)
  have hapos : 1 ≤ a.length := by
    cases a with
    | nil => exact absurd rfl hane
    | cons x t => simp
  unfold matchAt
  refine tryEach_isSome_intro _ _ a.length (dpl_pos_mem _ _ hapos (by omega)) ?_
  rw [hcs2, List.drop_left]
  rw [show (quoteDot :: (b ++ (litAvgRating ++ (mid ++ (g2 ++ (litRatings ++ post)))))) =
      [quoteDot] ++ (b ++ (litAvgRating ++ (mid ++ (g2 ++ (litRatings ++ post))))) from rfl]
  rw [litMatch_self_append]
  simp only [Option.some_bind]
  have hdplb : digitsPrefixLen (b ++ (litAvgRating ++
      (mid ++ (g2 ++ (litRatings ++ post))))) = b.length := by
    rw [hlitA]
    exact dpl_append b ' ' _ hbdig (by decide)
  have hbpos : 1 ≤ b.length := by
    cases b with
    | nil => exact absurd rfl hbne
    | cons x t => simp
  refine tryEach_isSome_intro _ _ b.length (dpl_pos_mem _ _ hbpos (by omega)) ?_
  rw [List.drop_left, litMatch_self_append]
  simp only [Option.some_bind]
  refine tryEach_isSome_intro _ _ mid.length
    (mem_lazyCands_intro _ _ (by simp)) ?_
  rw [List.drop_left]
  have := matchCount_complete g2 post hshape
  rw [List.append_assoc] at this
  cases hmc : matchCount (g2 ++ (litRatings ++ post)) with
  | none => rw [hmc] at this; simp at this
  | some g2c => simp

theorem reSearch_some (cs : List Char) (r : List Char × List Char)
    (h : reSearch cs = some r) :
    ∃ i, matchAt (cs.drop i) = some r ∧
      ∀ j, j < i → matchAt (cs.drop j) = Option.none := by
  induction cs with
  | nil => simp [reSearch] at h
  | cons c rest ih =>
    simp only [reSearch] at h
    cases hm : matchAt (c :: rest) with
    | some r2 =>
      rw [hm] at h
      refine ⟨0, ?_, ?_⟩
      · rw [List.drop_zero, hm]
        exact h
      · intro j hj; omega
    | none =>
      rw [hm] at h
      obtain ⟨i, h1, h2⟩ := ih h
      refine ⟨i + 1, ?_, ?_⟩
      · rw [List.drop_succ_cons]; exact h1
      · intro j hj
        cases j with
        | zero => rw [List.drop_zero]; exact hm
        | succ j2 => rw [List.drop_succ_cons]; exact h2 j2 (by omega)

theorem matchAt_nil : matchAt [] = Option.none := rfl

theorem reSearch_none (cs : List Char)
    (h : reSearch cs = Option.none) :
    ∀ i, matchAt (cs.drop i) = Option.none := by
  induction cs with
  | nil => intro i; rw [List.drop_nil]; exact matchAt_nil
  | cons c rest ih =>
    simp only [reSearch] at h
    cases hm : matchAt (c :: rest) with
    | some r => rw [hm] at h; simp at h
    | none =>
      rw [hm] at h
      intro i
      cases i with
      | zero => rw [List.drop_zero]; exact hm
      | succ j => rw [List.drop_succ_cons]; exact ih h j

/-- Claim C3: rating extraction implements leftmost (first-substring) search
for the pattern `<float> avg rating <anything, newlines included> <int with
an optional comma> ratings`.  When the search fails there is no match
anywhere in the text and both values are absent (and extraction, being a
total function, raises nothing).  When the search succeeds, the result is
the parsed float of group 1 and the comma-stripped integer of group 2, the
groups genuinely decompose the text at some start position, and no earlier
start position admits any match. -/
theorem extract_rating_first_match (text : String) :
    (reSearch text.data = Option.none →
      extract_rating text = (Option.none, Option.none) ∧
      ∀ i, ¬ HasMatch (text.data.drop i)) ∧
    (∀ g1 g2, reSearch text.data = some (g1, g2) →
      extract_rating text =
        (some (parse_rating_float g1), some (parse_int_commas g2)) ∧
      ∃ i, DecompAt (text.data.drop i) g1 g2 ∧
        ∀ j, j < i → ¬ HasMatch (text.data.drop j)) := by
  constructor
  · intro h
    constructor
    · unfold extract_rating
      rw [h]
    · intro i hm
      obtain ⟨g1, g2, hdec⟩ := hm
      have hsome := matchAt_complete _ _ _ hdec
      rw [reSearch_none text.data h i] at hsome
      simp at hsome
  · intro g1 g2 h
    constructor
    · unfold extract_rating
      rw [h]
    · obtain ⟨i, h1, h2⟩ := reSearch_some text.data (g1, g2) h
      refine ⟨i, matchAt_sound _ _ _ h1, ?_⟩
      intro j hj hm
      obtain ⟨g1b, g2b, hdec⟩ := hm
      have hsome := matchAt_complete _ _ _ hdec
      rw [h2 j hj] at hsome
      simp at hsome

/-- The spec's scenario text for rating extraction. -/
def scenarioRating : String := "4.25 avg rating — 1,234 ratings"

/-- A second scenario exercising DOTALL: the lazy gap spans a newline. -/
def scenarioNewline : String := "3.5 avg rating\nabc 42 ratings"

/-- Witness for C3: on `"4.25 avg rating — 1,234 ratings"` the search finds
groups `4.25` and `1,234`, and extraction yields rating `4.25` and count
`1234`; on a text with a newline inside the gap the pattern still matches. -/
theorem extract_rating_first_match_witness :
    reSearch scenarioRating.data = some (("4.25").data, ("1,234").data) ∧
    extract_rating scenarioRating = (some ((17 : Rat) / 4), some 1234) ∧
    reSearch scenarioNewline.data = some (("3.5").data, ("42").data) ∧
    extract_rating scenarioNewline = (some ((7 : Rat) / 2), some 42) := by
  have h1 : reSearch scenarioRating.data = some (("4.25").data, ("1,234").data) := by
    decide
  have h2 : reSearch scenarioNewline.data = some (("3.5").data, ("42").data) := by
    decide
  have e1 := ((extract_rating_first_match scenarioRating).2 _ _ h1).1
  have e2 := ((extract_rating_first_match scenarioNewline).2 _ _ h2).1
  refine ⟨h1, ?_, h2, ?_⟩
  · rw [e1]
    have t1 : ("4.25").data.takeWhile Char.isDigit = ['4'] := rfl
    have d1 : digitsToNat ['4'] = 4 := rfl
    have d2 : digitsToNat ['2', '5'] = 25 := rfl
    have c1 : parse_int_commas (("1,234").data) = 1234 := rfl
    simp only [parse_rating_float, t1, c1]
    norm_num [d1, d2]
  · rw [e2]
    have t1 : ("3.5").data.takeWhile Char.isDigit = ['3'] := rfl
    have d1 : digitsToNat ['3'] = 3 := rfl
    have d2 : digitsToNat ['5'] = 5 := rfl
    have c1 : parse_int_commas (("42").data) = 42 := rfl
    simp only [parse_rating_float, t1, c1]
    norm_num [d1, d2]

/- ================================================================== -/
/- Claim C9: CSV write/read round trip.                                -/

theorem univ_cons (c : Char) (hc : c ≠ '\r') (cs : List Char) :
    univNewlines (c :: cs) = c :: univNewlines cs := by
  cases cs with
  | nil => simp [univNewlines, hc]
  | cons d t => simp [univNewlines, hc]

theorem univ_crlf (cs : List Char) :
    univNewlines ('\r' :: '\n' :: cs) = '\n' :: univNewlines cs := by
  simp [univNewlines]

theorem univ_line (l : List Char) (hl : '\r' ∉ l) (rest : List Char) :
    univNewlines (l ++ '\r' :: '\n' :: rest) = l ++ '\n' :: univNewlines rest := by
  induction l with
  | nil => simpa using univ_crlf rest
  | cons c t ih =>
    have hc : c ≠ '\r' := fun h => hl (by simp [h])
    have ht : '\r' ∉ t := fun h => hl (by simp [h])
    rw [List.cons_append, univ_cons c hc, ih ht]
    rfl

theorem univ_content (lines : List (List Char)) (h : ∀ l ∈ lines, '\r' ∉ l) :
    univNewlines (List.flatten (lines.map (fun l => l ++ ['\r', '\n']))) =
      List.flatten (lines.map (fun l => l ++ ['\n'])) := by
  induction lines with
  | nil => rfl
  | cons l ls ih =>
    simp only [List.map_cons, List.flatten_cons]
    have e1 : l ++ ['\r', '\n'] ++ List.flatten (ls.map (fun l => l ++ ['\r', '\n'])) =
        l ++ '\r' :: '\n' :: List.flatten (ls.map (fun l => l ++ ['\r', '\n'])) := by
      simp
    rw [e1, univ_line l (h l (by simp)), ih (fun x hx => h x (by simp [hx]))]
    simp

theorem escQ_noCR (f : List Char) (h : '\r' ∉ f) : '\r' ∉ escQ f := by
  induction f with
  | nil => simp [escQ]
  | cons c t ih =>
    have ht : '\r' ∉ t := fun he => h (by simp [he])
    by_cases hq : c = '"'
    · simp only [escQ, if_pos hq]
      intro hmem
      simp only [List.mem_cons] at hmem
      rcases hmem with h1 | h1 | h1
      · exact absurd h1 (by decide)
      · exact absurd h1 (by decide)
      · exact ih ht h1
    · simp only [escQ, if_neg hq]
      intro hmem
      simp only [List.mem_cons] at hmem
      rcases hmem with h1 | h1
      · exact h (by simp [← h1])
      · exact ih ht h1

theorem serField_noCR (f : List Char) (h : '\r' ∉ f) : '\r' ∉ serField f := by
  unfold serField
  by_cases hq : needsQuote f
  · rw [if_pos hq]
    intro hmem
    simp only [List.mem_cons, List.mem_append, List.mem_singleton] at hmem
    rcases hmem with h1 | h1 | h1
    · exact absurd h1 (by decide)
    · exact escQ_noCR f h h1
    · exact absurd h1 (by decide)
  · rw [if_neg hq]
    exact h

theorem joinComma_noCR : ∀ (fs : List (List Char)), (∀ f ∈ fs, '\r' ∉ f) →
    '\r' ∉ joinComma fs := by
  intro fs
  induction fs with
  | nil => intro _; simp [joinComma]
  | cons f rest ih =>
    intro h
    cases rest with
    | nil => simpa [joinComma] using h f (by simp)
    | cons g t =>
      show '\r' ∉ f ++ ',' :: joinComma (g :: t)
      intro hmem
      simp only [List.mem_append, List.mem_cons] at hmem
      rcases hmem with h1 | h1 | h1
      · exact h f (by simp) h1
      · exact absurd h1 (by decide)
      · exact ih (fun x hx => h x (by simp [hx])) h1

theorem serRecord_eq_join (r : List (List Char)) (hr : r ≠ [[]]) :
    serRecord r = joinComma (r.map serField) := by
  rcases r with _ | ⟨f, t⟩
  · rfl
  · rcases f with _ | ⟨c, fc⟩
    · rcases t with _ | ⟨g, tg⟩
      · exact absurd rfl hr
      · rfl
    · rfl

theorem serRecord_noCR (r : List (List Char)) (h : ∀ f ∈ r, '\r' ∉ f) :
    '\r' ∉ serRecord r := by
  by_cases hr : r = [[]]
  · subst hr
    decide
  · rw [serRecord_eq_join r hr]
    apply joinComma_noCR
    intro x hx
    obtain ⟨f, hf, hfx⟩ := List.mem_map.mp hx
    rw [← hfx]
    exact serField_noCR f (h f hf)

theorem needsQuote_false_elim (f : List Char) (h : needsQuote f = false) :
    ∀ c ∈ f, c ≠ ',' ∧ c ≠ '"' ∧ c ≠ '\n' := by
  intro c hc
  unfold needsQuote at h
  have h2 := (List.any_eq_false.mp h) c hc
  rw [Bool.not_eq_true] at h2
  simp only [Bool.or_eq_false_iff, decide_eq_false_iff_not] at h2
  exact ⟨h2.1.1.1, h2.1.1.2, h2.2⟩

theorem csv_unquoted_consume (f : List Char)
    (hf : ∀ c ∈ f, c ≠ ',' ∧ c ≠ '"' ∧ c ≠ '\n') :
    ∀ (facc : List Char) (racc : List (List Char)) (cs : List Char),
      csvGo CsvState.unquoted facc racc (f ++ cs) =
        csvGo CsvState.unquoted (facc ++ f) racc cs := by
  induction f with
  | nil => intro facc racc cs; simp
  | cons c t ih =>
    intro facc racc cs
    obtain ⟨hc1, _, hc3⟩ := hf c (by simp)
    rw [List.cons_append]
    show csvGo CsvState.unquoted facc racc (c :: (t ++ cs)) = _
    simp only [csvGo, if_neg hc1, if_neg hc3]
    rw [ih (fun x hx => hf x (by simp [hx])) (facc ++ [c]) racc cs]
    simp

theorem csv_quoted_consume (f : List Char) :
    ∀ (facc : List Char) (racc : List (List Char)) (cs : List Char),
      csvGo CsvState.quoted facc racc (escQ f ++ '"' :: cs) =
        csvGo CsvState.quotePending (facc ++ f) racc cs := by
  induction f with
  | nil =>
    intro facc racc cs
    show csvGo CsvState.quoted facc racc ('"' :: cs) = _
    simp [csvGo]
  | cons c t ih =>
    intro facc racc cs
    by_cases hq : c = '"'
    · subst hq
      have he : escQ ('"' :: t) = '"' :: '"' :: escQ t := by simp [escQ]
      rw [he, List.cons_append, List.cons_append]
      simp only [csvGo, if_pos rfl]
      rw [ih (facc ++ ['"']) racc cs]
      simp
    · have he : escQ (c :: t) = c :: escQ t := by simp [escQ, hq]
      rw [he, List.cons_append]
      simp only [csvGo, if_neg hq]
      rw [ih (facc ++ [c]) racc cs]
      simp

theorem csv_serField_comma (f : List Char) (racc : List (List Char)) (cs : List Char) :
    csvGo CsvState.fieldStart [] racc (serField f ++ ',' :: cs) =
      csvGo CsvState.fieldStart [] (racc ++ [f]) cs := by
  by_cases hq : needsQuote f
  · rw [serField, if_pos hq]
    show csvGo CsvState.fieldStart [] racc
        (('"' :: (escQ f ++ ['"'])) ++ ',' :: cs) = _
    rw [List.cons_append, List.append_assoc]
    simp only [csvGo, if_pos rfl]
    rw [show (['"'] ++ ',' :: cs : List Char) = '"' :: ',' :: cs from rfl]
    rw [csv_quoted_consume f [] racc (',' :: cs)]
    simp [csvGo]
  · have hq2 : needsQuote f = false := by simpa using hq
    rw [serField, if_neg hq]
    cases f with
    | nil => simp [csvGo]
    | cons c t =>
      obtain ⟨hc1, hc2, hc3⟩ := needsQuote_false_elim _ hq2 c (by simp)
      rw [List.cons_append]
      show csvGo CsvState.fieldStart [] racc (c :: (t ++ ',' :: cs)) = _
      simp only [csvGo, if_neg hc1, if_neg hc2, if_neg hc3]
      simp only [List.nil_append]
      rw [csv_unquoted_consume t
        (fun x hx => needsQuote_false_elim _ hq2 x (by simp [hx])) [c] racc (',' :: cs)]
      simp [csvGo]

theorem csv_serField_newline (f : List Char) (racc : List (List Char)) (cs : List Char)
    (hne : ¬(f = [] ∧ racc = [])) :
    csvGo CsvState.fieldStart [] racc (serField f ++ '\n' :: cs) =
      (racc ++ [f]) :: csvGo CsvState.fieldStart [] [] cs := by
  by_cases hq : needsQuote f
  · rw [serField, if_pos hq]
    show csvGo CsvState.fieldStart [] racc
        (('"' :: (escQ f ++ ['"'])) ++ '\n' :: cs) = _
    rw [List.cons_append, List.append_assoc]
    simp only [csvGo, if_pos rfl]
    rw [show (['"'] ++ '\n' :: cs : List Char) = '"' :: '\n' :: cs from rfl]
    rw [csv_quoted_consume f [] racc ('\n' :: cs)]
    simp [csvGo]
  · have hq2 : needsQuote f = false := by simpa using hq
    rw [serField, if_neg hq]
    cases f with
    | nil =>
      have hracc : racc ≠ [] := fun he => hne ⟨rfl, he⟩
      simp [csvGo, hracc]
    | cons c t =>
      obtain ⟨hc1, hc2, hc3⟩ := needsQuote_false_elim _ hq2 c (by simp)
      rw [List.cons_append]
      show csvGo CsvState.fieldStart [] racc (c :: (t ++ '\n' :: cs)) = _
      simp only [csvGo, if_neg hc1, if_neg hc2, if_neg hc3]
      simp only [List.nil_append]
      rw [csv_unquoted_consume t
        (fun x hx => needsQuote_false_elim _ hq2 x (by simp [hx])) [c] racc ('\n' :: cs)]
      simp [csvGo]

theorem csv_fields : ∀ (fs : List (List Char)) (racc : List (List Char)),
    fs ≠ [] → racc ≠ [] → ∀ (cs : List Char),
    csvGo CsvState.fieldStart [] racc (joinComma (fs.map serField) ++ '\n' :: cs) =
      (racc ++ fs) :: csvGo CsvState.fieldStart [] [] cs := by
  intro fs
  induction fs with
  | nil => intro racc h; exact absurd rfl h
  | cons g rest ih =>
    intro racc _ hracc cs
    cases rest with
    | nil =>
      rw [show joinComma ([g].map serField) = serField g from rfl]
      rw [csv_serField_newline g racc cs (fun hand => hracc hand.2)]
    | cons g2 t =>
      rw [show joinComma ((g :: g2 :: t).map serField) =
          serField g ++ ',' :: joinComma ((g2 :: t).map serField) from rfl]
      rw [List.append_assoc, List.cons_append]
      rw [csv_serField_comma g racc _]
      rw [ih (racc ++ [g]) (by simp) (by simp) cs]
      simp

theorem csv_record (r : List (List Char)) (cs : List Char) :
    csvGo CsvState.fieldStart [] [] (serRecord r ++ '\n' :: cs) =
      r :: csvGo CsvState.fieldStart [] [] cs := by
  by_cases h11 : r = [[]]
  · subst h11
    show csvGo CsvState.fieldStart [] [] ('"' :: '"' :: '\n' :: cs) = _
    simp [csvGo]
  · rw [serRecord_eq_join r h11]
    rcases r with _ | ⟨f, t⟩
    · show csvGo CsvState.fieldStart [] [] ([] ++ '\n' :: cs) = _
      simp [csvGo]
    · rcases t with _ | ⟨g, t2⟩
      · have hf : f ≠ [] := fun he => h11 (by rw [he])
        rw [show joinComma ([f].map serField) = serField f from rfl]
        rw [csv_serField_newline f [] cs (fun hand => hf hand.1)]
        simp
      · rw [show joinComma ((f :: g :: t2).map serField) =
            serField f ++ ',' :: joinComma ((g :: t2).map serField) from rfl]
        rw [List.append_assoc, List.cons_append]
        rw [csv_serField_comma f [] _]
        simp only [List.nil_append]
        rw [csv_fields (g :: t2) [f] (by simp) (by simp) cs]
        simp

theorem csv_records : ∀ (rs : List (List (List Char))),
    csvGo CsvState.fieldStart [] []
      (List.flatten (rs.map (fun r => serRecord r ++ ['\n']))) = rs := by
  intro rs
  induction rs with
  | nil => rfl
  | cons r rest ih =>
    simp only [List.map_cons, List.flatten_cons]
    have e : serRecord r ++ ['\n'] ++
        List.flatten (rest.map (fun r => serRecord r ++ ['\n'])) =
        serRecord r ++ '\n' :: List.flatten (rest.map (fun r => serRecord r ++ ['\n'])) := by
      simp
    rw [e, csv_record, ih]

theorem map_mk_data (l : List String) : l.map (String.mk ∘ String.data) = l := by
  induction l with
  | nil => rfl
  | cons s t ih => exact congrArg₂ List.cons rfl ih

theorem map_map_mk_data (rs : List (List String)) :
    rs.map ((fun r => List.map String.mk r) ∘ (fun r => List.map String.data r)) = rs := by
  induction rs with
  | nil => rfl
  | cons r t ih =>
    refine congrArg₂ List.cons ?_ ih
    show List.map String.mk (List.map String.data r) = r
    rw [List.map_map]
    exact map_mk_data r

/-- Claim C9 (amended): writing any headers and rows with `write_csv` and
reading the file back through the universal-newline translation and the csv
reader returns exactly the same headers and rows, provided no header or
field contains a carriage return.  (A field containing `'\r'` comes back
with `'\n'` in its place: see the counterexample.) -/
theorem csv_round_trip_no_cr (headers : List String) (rows : List (List String))
    (hh : ∀ h ∈ headers, '\r' ∉ h.data)
    (hr : ∀ r ∈ rows, ∀ f ∈ r, '\r' ∉ f.data) :
    read_csv (write_csv headers rows) = some (headers, rows) := by
  have hrecs : ∀ rec ∈ (headers.map String.data) :: rows.map (fun r => r.map String.data),
      '\r' ∉ serRecord rec := by
    intro rec hrec
    rcases List.mem_cons.mp hrec with h | h
    · subst h
      apply serRecord_noCR
      intro f hf
      obtain ⟨s, hs, hsf⟩ := List.mem_map.mp hf
      rw [← hsf]
      exact hh s hs
    · obtain ⟨r, hrm, hrf⟩ := List.mem_map.mp h
      subst hrf
      apply serRecord_noCR
      intro f hf
      obtain ⟨s, hs, hsf⟩ := List.mem_map.mp hf
      rw [← hsf]
      exact hr r hrm s hs
  unfold read_csv write_csv parse_csv
  have hmm : ((headers.map String.data) :: rows.map (fun r => r.map String.data)).map
        (fun r => serRecord r ++ ['\r', '\n']) =
      (((headers.map String.data) :: rows.map (fun r => r.map String.data)).map
        serRecord).map (fun l => l ++ ['\r', '\n']) := by
    rw [List.map_map]
    rfl
  rw [hmm]
  rw [univ_content _ (by
    intro l hl
    obtain ⟨rec, hrec, hrecl⟩ := List.mem_map.mp hl
    rw [← hrecl]
    exact hrecs rec hrec)]
  have hmm2 : ((((headers.map String.data) :: rows.map (fun r => r.map String.data)).map
        serRecord).map (fun l => l ++ ['\n'])) =
      ((headers.map String.data) :: rows.map (fun r => r.map String.data)).map
        (fun r => serRecord r ++ ['\n']) := by
    rw [List.map_map]
    rfl
  rw [hmm2, csv_records]
  simp only [List.map_map]
  exact congrArg some (congrArg₂ Prod.mk (map_mk_data headers) (map_map_mk_data rows))

def hdrTitle : String := "title"

def hdrAuthor : String := "author"

def fieldComma : String := "p,q"

def fieldQuoteNl : String := "say \"hi\"\nbye"

/-- Witness for C9 on concrete headers and rows that exercise quoting,
escaped quotes and an embedded newline. -/
theorem csv_round_trip_no_cr_witness :
    (∀ h ∈ [hdrTitle, hdrAuthor], '\r' ∉ h.data) ∧
    (∀ r ∈ [[fieldComma, fieldQuoteNl]], ∀ f ∈ r, '\r' ∉ f.data) ∧
    read_csv (write_csv [hdrTitle, hdrAuthor] [[fieldComma, fieldQuoteNl]]) =
      some ([hdrTitle, hdrAuthor], [[fieldComma, fieldQuoteNl]]) :=
  ⟨by decide, by decide,
   csv_round_trip_no_cr [hdrTitle, hdrAuthor] [[fieldComma, fieldQuoteNl]]
     (by decide) (by decide)⟩

def fieldCR : String := "a\rb"

def fieldCRasNl : String := "a\nb"

/-- Counterexample to C9 as literally stated: a header field containing a
carriage return is written quoted as `"a\rb"`, but reading the file back
goes through universal-newline translation (the file is opened without
`newline=''`), which turns the `\r` into `\n`; the read headers are
`a\nb` ≠ `a\rb`, so the round trip is not string-for-string identical. -/
theorem csv_round_trip_fails_on_cr :
    read_csv (write_csv [fieldCR] []) = some ([fieldCRasNl], []) ∧
    read_csv (write_csv [fieldCR] []) ≠ some ([fieldCR], []) := by
  constructor
  · decide
  · decide

/- ================================================================== -/
/- Claim C6: the suggestion branch of the verification stage.          -/

/-- A literal match of `sr` that starts inside `X2 ++ [q] ++ tail` at its very
first character either fits within `X2` or must contain `q`; so if `q ∉ sr`,
the pattern already matches at the front of `X2` alone. -/
theorem litMatch_prefix_of_straddle (sr : List Char) (q : Char) (hq : q ∉ sr) :
    ∀ (X2 tail r : List Char), litMatch sr ((X2 ++ [q]) ++ tail) = some r →
      ∃ r2, litMatch sr X2 = some r2 := by
  intro X2 tail r h
  have heq := litMatch_some _ _ _ h
  rw [List.append_assoc] at heq
  by_cases hle : sr.length ≤ X2.length
  · have ht1 : (X2 ++ ([q] ++ tail)).take sr.length = X2.take sr.length :=
      take_append_le X2 ([q] ++ tail) sr.length hle
    rw [heq, List.take_left] at ht1
    refine ⟨X2.drop sr.length, ?_⟩
    have hX2 : X2 = sr ++ X2.drop sr.length := by
      conv_lhs => rw [← List.take_append_drop sr.length X2]
      rw [← ht1]
    conv_lhs => rw [hX2]
    exact litMatch_self_append _ _
  · exfalso
    have hlt : X2.length < sr.length := Nat.lt_of_not_le hle
    have ht1 : (X2 ++ ([q] ++ tail)).take (X2.length + 1) = X2 ++ [q] := by
      rw [List.take_append 1]
      simp
    have ht2 : (sr ++ r).take (X2.length + 1) = sr.take (X2.length + 1) :=
      take_append_le sr r (X2.length + 1) hlt
    rw [heq, ht2] at ht1
    have hqin : q ∈ sr := mem_take_subset (X2.length + 1) sr q (by rw [ht1]; simp)
    exact hq hqin

/-- Appending a single character `q` that is neither the pattern head nor a
member of the pattern tail cannot create an occurrence of the pattern. -/
theorem containsSub_append_single (s0 : Char) (sr : List Char) (q : Char)
    (hq1 : ¬(q = s0)) (hq2 : q ∉ sr) :
    ∀ (X : List Char), containsSub s0 sr X = false →
      containsSub s0 sr (X ++ [q]) = false := by
  intro X
  induction X with
  | nil =>
    intro _
    simp [containsSub, hq1]
  | cons c X2 ih =>
    intro h
    simp only [containsSub, Bool.or_eq_false_iff, Bool.and_eq_false_iff] at h
    obtain ⟨h1, h2⟩ := h
    simp only [List.cons_append, containsSub, Bool.or_eq_false_iff,
      Bool.and_eq_false_iff]
    refine ⟨?_, ih h2⟩
    rcases h1 with h1 | h1
    · exact Or.inl h1
    · right
      cases hlm : litMatch sr (X2 ++ [q]) with
      | none => rfl
      | some r =>
        exfalso
        obtain ⟨r2, hr2⟩ := litMatch_prefix_of_straddle sr q hq2 X2 [] r
          (by rw [List.append_nil]; exact hlm)
        rw [hr2] at h1
        simp at h1

/-- `scanClear s0 sr cs tail` records that no occurrence of the separator
`s0 :: sr` starts at any position of `cs`, even allowing the match to run on
into `tail` (the text that follows `cs`). -/
def scanClear (s0 : Char) (sr : List Char) : List Char → List Char → Bool
  | [], _ => true
  | c :: rest, tail =>
    (!(decide (c = s0) && (litMatch sr (rest ++ tail)).isSome)) &&
      scanClear s0 sr rest tail

theorem scanClear_append (s0 : Char) (sr : List Char) :
    ∀ (a b tail : List Char),
      scanClear s0 sr (a ++ b) tail =
        (scanClear s0 sr a (b ++ tail) && scanClear s0 sr b tail) := by
  intro a
  induction a with
  | nil => intro b tail; simp [scanClear]
  | cons x a2 ih =>
    intro b tail
    simp only [List.cons_append, scanClear, List.append_eq]
    rw [ih b tail, List.append_assoc, Bool.and_assoc]

theorem scanClear_of_no_hit (s0 : Char) (sr : List Char) :
    ∀ (a : List Char), (∀ c ∈ a, ¬(c = s0)) → ∀ (tail : List Char),
      scanClear s0 sr a tail = true := by
  intro a
  induction a with
  | nil => intro _ tail; rfl
  | cons x a2 ih =>
    intro h tail
    have hx : ¬(x = s0) := h x (by simp)
    simp only [scanClear, Bool.and_eq_true]
    refine ⟨by simp [hx], ih (fun c hc => h c (by simp [hc])) tail⟩

/-- If the separator `s0 :: sr` does not occur in `X` and the single
character `q` appears nowhere in it, then no occurrence of the separator
starts anywhere in `X ++ [q]`, whatever text follows. -/
theorem scanClear_inner (s0 : Char) (sr : List Char) (q : Char)
    (hq1 : ¬(q = s0)) (hq2 : q ∉ sr) :
    ∀ (X : List Char), containsSub s0 sr X = false → ∀ (tail : List Char),
      scanClear s0 sr (X ++ [q]) tail = true := by
  intro X
  induction X with
  | nil =>
    intro _ tail
    simp only [List.nil_append, scanClear, List.append_eq, Bool.and_eq_true]
    exact ⟨by simp [hq1], trivial⟩
  | cons c X2 ih =>
    intro h tail
    simp only [containsSub, Bool.or_eq_false_iff, Bool.and_eq_false_iff] at h
    obtain ⟨h1, h2⟩ := h
    simp only [List.cons_append, scanClear, List.append_eq, Bool.and_eq_true]
    refine ⟨?_, ih h2 tail⟩
    by_cases hc : c = s0
    · rcases h1 with h1 | h1
      · rw [hc] at h1; simp at h1
      · cases hlm : litMatch sr ((X2 ++ [q]) ++ tail) with
        | none => simp [hlm]
        | some r =>
          exfalso
          obtain ⟨r2, hr2⟩ := litMatch_prefix_of_straddle sr q hq2 X2 tail r hlm
          rw [hr2] at h1
          simp at h1
    · simp [hc]

theorem splitGo_skip_scan (s0 : Char) (sr : List Char) :
    ∀ (a cs : List Char), scanClear s0 sr a cs = true → ∀ (k : Nat) (acc : List Char),
      splitGo s0 sr (a.length + k) (a ++ cs) acc =
        splitGo s0 sr k cs (a.reverse ++ acc) := by
  intro a
  induction a with
  | nil => intro cs _ k acc; simp
  | cons x a2 ih =>
    intro cs hscan k acc
    simp only [scanClear, List.append_eq, Bool.and_eq_true] at hscan
    obtain ⟨hx, hrest⟩ := hscan
    have hl : (x :: a2).length + k = (a2.length + k) + 1 := by simp; omega
    rw [hl, List.cons_append]
    by_cases hxs : x = s0
    · have hlm : litMatch sr (a2 ++ cs) = Option.none := by
        cases hlm2 : litMatch sr (a2 ++ cs) with
        | none => rfl
        | some r => rw [hxs, hlm2] at hx; simp at hx
      simp only [splitGo, if_pos hxs, hlm]
      rw [ih cs hrest k (x :: acc)]
      simp
    · simp only [splitGo, if_neg hxs]
      rw [ih cs hrest k (x :: acc)]
      simp

/-- Splitting on the separator `s0 :: sr` of a text built as
`a ++ separator ++ b` gives exactly `[a, b]`, provided no occurrence of the
separator starts inside `a` (even one running past `a`) and none occurs in
`b`. -/
theorem split_two_general (s0 : Char) (sr a b : List Char)
    (ha : scanClear s0 sr a ((s0 :: sr) ++ b) = true)
    (hb : containsSub s0 sr b = false) :
    splitGo s0 sr (a ++ (s0 :: sr) ++ b).length (a ++ (s0 :: sr) ++ b) [] = [a, b] := by
  have hlen : (a ++ (s0 :: sr) ++ b).length = a.length + ((sr.length + b.length) + 1) := by
    simp only [List.length_append, List.length_cons]
    omega
  rw [hlen, List.append_assoc]
  rw [splitGo_skip_scan s0 sr a ((s0 :: sr) ++ b) ha ((sr.length + b.length) + 1) []]
  have h2 : (s0 :: sr) ++ b = s0 :: (sr ++ b) := by simp
  rw [h2, splitGo_hit s0 sr b (a.reverse ++ []) (sr.length + b.length)]
  rw [Nat.add_comm sr.length b.length, splitGo_noocc s0 sr b hb sr.length []]
  simp

/-- No occurrence of `", author:"` starts inside the prefix
`title: '<T>'` of the reply, provided `T` itself does not contain
`", author:"`: the keyword and quote characters cannot begin the separator,
an occurrence inside `T` is excluded by hypothesis, and one straddling the
closing quote would have to contain the quote character. -/
theorem scanClear_aChars (T : String) (tail : List Char)
    (hT : containsSub ',' ((" author:").data) T.data = false) :
    scanClear ',' ((" author:").data) (aChars T) tail = true := by
  have hre : aChars T = (("title:").data ++ [' ', quoteC]) ++ (T.data ++ [quoteC]) := by
    simp [aChars, wrapChars, List.append_assoc]
  rw [hre, scanClear_append ',' ((" author:").data) (("title:").data ++ [' ', quoteC])
    (T.data ++ [quoteC]) tail]
  rw [scanClear_of_no_hit ',' ((" author:").data) (("title:").data ++ [' ', quoteC])
    (by decide) ((T.data ++ [quoteC]) ++ tail)]
  rw [scanClear_inner ',' ((" author:").data) quoteC (by decide) (by decide)
    T.data hT tail]
  rfl

/-- The quoted payload ` '<A>'` contains no occurrence of `", author:"`
when `A` itself contains none. -/
theorem wrap_no_sep (A : String)
    (hA : containsSub ',' ((" author:").data) A.data = false) :
    containsSub ',' ((" author:").data) (wrapChars A) = false := by
  show containsSub ',' ((" author:").data) (' ' :: (quoteC :: (A.data ++ [quoteC]))) = false
  simp only [containsSub, Bool.or_eq_false_iff, Bool.and_eq_false_iff]
  refine ⟨Or.inl (by decide), ⟨Or.inl (by decide), ?_⟩⟩
  exact containsSub_append_single ',' ((" author:").data) quoteC (by decide) (by decide)
    A.data hA

/-- Claim C6: in the verification stage, a reply of the exact shape
`title: '<T>', author: '<A>'` — where the suggested title `T` and author `A`
contain no newline, neither contains the separator text `, author:` itself,
`T` does not contain the keyword `title:`, and neither begins or ends with a
quote (exactly the conditions under which the reply is unambiguous to the
split-based parser) — replaces the row's first two fields with `T` and `A`,
preserves the remaining fields, and records the comparison entry
`[oldTitle, T, oldAuthor, A, None]` with no error text. In particular `T`
and `A` may contain commas, as in `Herbert, Frank`. -/
theorem suggestion_reply_updates_row
    (title author T A : String) (rest : List String)
    (hTn : '\n' ∉ T.data) (hAn : '\n' ∉ A.data)
    (hTsep : containsSub ',' ((" author:").data) T.data = false)
    (hAsep : containsSub ',' ((" author:").data) A.data = false)
    (hTt : containsSub 't' ("itle:").data T.data = false)
    (hT1 : T.data.head? ≠ some quoteC) (hT2 : T.data.getLast? ≠ some quoteC)
    (hA1 : A.data.head? ≠ some quoteC) (hA2 : A.data.getLast? ≠ some quoteC) :
    apply_reply title author rest (mkSuggestion T A) =
      (T :: A :: rest, [[some title, some T, some author, some A, Option.none]]) := by
  have hne := mkSuggestion_ne_correct T A
  have hnl : '\n' ∉ (mkSuggestion T A).data := by
    rw [mkSuggestion_data]
    intro hmem
    simp only [aChars, wrapChars, List.mem_append, List.mem_cons,
      List.mem_singleton] at hmem
    rcases hmem with ((h | h | h | h | h) | h) | h | h | h | h
    · exact absurd h (by decide)
    · exact absurd h (by decide)
    · exact absurd h (by decide)
    · exact hTn h
    · exact absurd h (by decide)
    · exact absurd h (by decide)
    · exact absurd h (by decide)
    · exact absurd h (by decide)
    · exact hAn h
    · exact absurd h (by decide)
  have hsa : sepAuthor.data = ',' :: (" author:").data := by decide
  have hsplit1 : pySplit (mkSuggestion T A) sepAuthor =
      [String.mk (aChars T), String.mk (wrapChars A)] := by
    simp only [pySplit, hsa]
    rw [mkSuggestion_data, hsa]
    rw [split_two_general ',' ((" author:").data) (aChars T) (wrapChars A)
      (scanClear_aChars T ((',' :: (" author:").data) ++ wrapChars A) hTsep)
      (wrap_no_sep A hAsep)]
    rfl
  have hst : sepTitle.data = 't' :: ("itle:").data := by decide
  have hsplit2 : pySplit (String.mk (aChars T)) sepTitle =
      [String.mk [], String.mk (wrapChars T)] := by
    simp only [pySplit, hst]
    show (splitGo 't' ("itle:").data (aChars T).length (aChars T) []).map String.mk = _
    have hlit : ("title:").data = 't' :: ("itle:").data := by decide
    have haT : aChars T = ('t' :: ("itle:").data) ++ wrapChars T := by
      show ("title:").data ++ wrapChars T = _
      rw [hlit]
    rw [haT]
    rw [split_sep_first 't' ("itle:").data (wrapChars T) (wrap_no_title T hTt)]
    rfl
  have hparse : parse_suggestion (mkSuggestion T A) = Except.ok (T, A) := by
    simp only [parse_suggestion]
    rw [replaceNl_eq_self _ hnl, hsplit1]
    simp only [List.length_cons, List.length_nil, List.getD_cons_zero,
      List.getD_cons_succ, if_true]
    rw [hsplit2]
    simp only [List.length_cons, List.length_nil, List.getD_cons_zero,
      List.getD_cons_succ]
    rw [if_pos (by omega : (2 : Nat) ≤ 2)]
    rw [strip_wrap T hT1 hT2, strip_wrap A hA1 hA2]
  unfold apply_reply
  rw [if_neg hne, hparse]

/-- Witness for C6, both at the spec's scenario
`title: 'Dune', author: 'Frank Herbert'` and at a comma-containing author
`title: 'Dune', author: 'Herbert, Frank'`. -/
theorem suggestion_reply_updates_row_witness :
    ('\n' ∉ ("Dune").data ∧
     containsSub ',' ((" author:").data) ("Dune").data = false ∧
     containsSub 't' ("itle:").data ("Dune").data = false ∧
     ("Dune").data.head? ≠ some quoteC ∧ ("Dune").data.getLast? ≠ some quoteC ∧
     '\n' ∉ ("Herbert, Frank").data ∧
     containsSub ',' ((" author:").data) ("Herbert, Frank").data = false ∧
     ("Herbert, Frank").data.head? ≠ some quoteC ∧
     ("Herbert, Frank").data.getLast? ≠ some quoteC) ∧
    apply_reply "Old Title" "Old Author" ["extra"] (mkSuggestion "Dune" "Herbert, Frank") =
      ("Dune" :: "Herbert, Frank" :: ["extra"],
       [[some "Old Title", some "Dune", some "Old Author", some "Herbert, Frank",
         Option.none]]) ∧
    apply_reply "Old Title" "Old Author" ["extra"] (mkSuggestion "Dune" "Frank Herbert") =
      ("Dune" :: "Frank Herbert" :: ["extra"],
       [[some "Old Title", some "Dune", some "Old Author", some "Frank Herbert",
         Option.none]]) :=
  ⟨⟨by decide, by decide, by decide, by decide, by decide, by decide, by decide,
    by decide, by decide⟩,
   suggestion_reply_updates_row "Old Title" "Old Author" "Dune" "Herbert, Frank" ["extra"]
     (by decide) (by decide) (by decide) (by decide) (by decide)
     (by decide) (by decide) (by decide) (by decide),
   suggestion_reply_updates_row "Old Title" "Old Author" "Dune" "Frank Herbert" ["extra"]
     (by decide) (by decide) (by decide) (by decide) (by decide)
     (by decide) (by decide) (by decide) (by decide)⟩
